import Mathlib

/-!
# Verification of the inbox-concierge synchronization and classification pipeline

Shallow embedding of the core pipeline of the repository:

* the classify API route (`src/app/api/core/classify/route.ts`, parallel
  rate-limited revision): request shape, `chunkArray`, `processSingleBatch`
  (strict response validation, name-to-id translation), the rate-limited
  dispatch loop, and the final aggregation of the `POST` handler;
* the sync reconciler `prepareSyncActions` (`src/lib/sync/sync.ts`);
* the classification selector of `handleClassification`
  (`src/components/EmailClassifierButton.tsx`).

JavaScript idioms are embedded faithfully: object maps over string keys are
association lists with insert-or-overwrite semantics (`objInsert`), JS `Map`
construction keeps the last entry per key (`bucketNameToIdMapLookup` looks up
the last bucket carrying a name), truthiness tests on strings are explicit
`≠ ""` tests, and `Set` deduplication keeps the first occurrence
(`firstDedup`).  The external model call is an input of the embedding: each
batch is given an arbitrary response, either a thrown error or a raw value.
-/

namespace Concierge

/-- An email of the classify request body (`classifyRequestSchema.emails`):
`threadId` is a required string, the other fields optional/nullable. -/
structure Email where
  threadId : String
  subject : Option String
  sender : Option String
  preview : Option String
  deriving DecidableEq, Repr

/-- A bucket object of the classify request body (`classifyRequestSchema.buckets`). -/
structure Bucket where
  id : String
  name : String
  description : Option String
  deriving DecidableEq, Repr

/-- `ClassificationError` of the route: the failed batch's id list and a reason. -/
structure BatchError where
  batchThreadIds : List String
  error : String
  deriving DecidableEq, Repr

/-- A JavaScript value as far as the validator inspects it: a string, or
anything else (`typeof x !== 'string'`). -/
inductive JsVal where
  | str (s : String)
  | nonstr
  deriving DecidableEq, Repr

/-- One element of the raw model output array: the two fields the code reads.
A field the model omitted is `nonstr` (its `typeof` is not `'string'`). -/
structure RawItem where
  threadId : JsVal
  bucketName : JsVal
  deriving DecidableEq, Repr

/-- The raw model output: an array of elements (each possibly null/falsy,
hence `Option`), or not an array at all (`!Array.isArray(rawResults)`). -/
inductive RawOutput where
  | arr (items : List (Option RawItem))
  | notArr (typeName : String)
  deriving DecidableEq, Repr

/-- A failure of the `generateObject` call: the `NoObjectGeneratedError`
branch of the route's `catch`, or any other thrown error. -/
inductive GenError where
  | noObject (cause : String)
  | apiError (msg : String)
  deriving DecidableEq, Repr

/-- `chunkArray` of the route: contiguous slices of `size` elements.
The source loop (`for (let i = 0; i < array.length; i += size)`) never
terminates for `size = 0` (the route always calls it with
`BATCH_SIZE = 10`); the embedding returns `[]` in that vacuous case to
stay total. -/
def chunkArray : List α → Nat → List (List α)
  | [], _ => []
  | _ :: _, 0 => []
  | a :: as, n + 1 => (a :: as).take (n + 1) :: chunkArray ((a :: as).drop (n + 1)) (n + 1)
termination_by l _ => l.length
decreasing_by
  simp only [List.length_drop, List.length_cons]
  omega

/-- `BATCH_SIZE` of the parallel classify route. -/
def BATCH_SIZE : Nat := 10

/-- `RATE_PER_SECOND` of the parallel classify route. -/
def RATE_PER_SECOND : Nat := 4

/-- `RATE_LIMIT_DELAY_BUFFER_MS` of the parallel classify route. -/
def RATE_LIMIT_DELAY_BUFFER_MS : Nat := 100

/-- A JS object over string keys, as the route's `ClassificationResult`:
`obj[k] = v` updates an existing key in place and appends a fresh key. -/
def objInsert (m : List (String × String)) (k v : String) : List (String × String) :=
  if m.any (fun p => p.1 = k) then
    m.map (fun p => if p.1 = k then (k, v) else p)
  else m ++ [(k, v)]

/-- `Object.keys` of an embedded JS object. -/
def objKeys (m : List (String × String)) : List String :=
  m.map Prod.fst

/-- Property read `obj[k]` of an embedded JS object. -/
def objLookup (m : List (String × String)) (k : String) : Option String :=
  (m.find? (fun p => p.1 = k)).map Prod.snd

/-- `Object.assign(target, source)`: the source's entries are written onto the
target in the source's key order. -/
def objAssign (target source : List (String × String)) : List (String × String) :=
  source.foldl (fun m p => objInsert m p.1 p.2) target

/-- `bucketNameToIdMapLookup.get name`: the JS `Map` built from
`buckets.map(b => [b.name, b.id])`.  `Map.set` overwrites an existing key, so
for a duplicated name the lookup returns the id of the last bucket with it. -/
def bucketNameToIdMapLookup (buckets : List Bucket) (name : String) : Option String :=
  (buckets.reverse.find? (fun b => b.name = name)).map Bucket.id

/-- The validation-failure reasons of the route's strict validation block, one
constructor per branch, carrying the data interpolated into its message. -/
inductive ValReason where
  | notArray (typeName : String)
  | wrongLength (got expected : Nat)
  | duplicateIds
  | countMismatch (inputCount resultCount : Nat)
  | missingId (tid : String)
  | invalidStructure
  | invalidBucketName (bucketName threadId : String)
  deriving DecidableEq, Repr

/-- The `validationError` string of each branch. -/
def validationMessage : ValReason → String
  | ValReason.notArray t =>
      "LLM result was not an array. Got: " ++ t
  | ValReason.wrongLength got expected =>
      "LLM returned " ++ toString got ++ " classifications, but expected exactly "
        ++ toString expected ++ "."
  | ValReason.duplicateIds =>
      "LLM returned duplicate thread IDs in its classification results."
  | ValReason.countMismatch inputCount resultCount =>
      "Mismatch between input thread IDs (" ++ toString inputCount
        ++ ") and valid returned thread IDs (" ++ toString resultCount ++ ") count."
  | ValReason.missingId tid =>
      "LLM classification result is missing thread ID: " ++ tid
  | ValReason.invalidStructure =>
      "LLM returned an invalid object structure in the array."
  | ValReason.invalidBucketName bucketName threadId =>
      "LLM returned invalid bucket name '" ++ bucketName ++ "' for thread ID "
        ++ threadId ++ "."

/-- The error string pushed by the `catch` handler of `processSingleBatch`. -/
def genErrorMessage : GenError → String
  | GenError.noObject cause =>
      "LLM did not return a valid classification array. Cause: " ++ cause
  | GenError.apiError msg =>
      "LLM API Error: " ++ msg

/-- Outcome of the strict validation block: `batchIsValid` with the reason set
when it is false. -/
inductive ValidationOutcome where
  | ok
  | err (reason : ValReason)
  deriving DecidableEq, Repr

/-- The string thread ids the duplicate-detection loop collects: elements that
are objects with a string `threadId`; others are skipped
(`if (!r || typeof r.threadId !== 'string') continue`). -/
def stringThreadIds (items : List (Option RawItem)) : List String :=
  items.filterMap (fun o =>
    match o with
    | some it =>
      match it.threadId with
      | JsVal.str s => some s
      | JsVal.nonstr => none
    | none => none)

/-- The `Set` constructor's insertion loop: each element is added once, in
order of first occurrence; `seen` holds the elements already added. -/
def firstDedupAux (seen : List String) : List String → List String
  | [] => []
  | a :: as =>
    if a ∈ seen then firstDedupAux seen as
    else a :: firstDedupAux (a :: seen) as

/-- JS `Set` of a string list: its iteration order keeps the first occurrence
of each element. -/
def firstDedup (l : List String) : List String :=
  firstDedupAux [] l

/-- The final validation loop over `rawResults`: the first element failing the
structure check (`!result`, non-string `threadId` or non-string `bucketName`)
or the bucket-name membership check, in order. -/
def checkItems (validBucketNames : List String) : List (Option RawItem) → Option ValReason
  | [] => none
  | o :: os =>
    match o with
    | some it =>
      match it.threadId, it.bucketName with
      | JsVal.str tid, JsVal.str bname =>
        if bname ∈ validBucketNames then checkItems validBucketNames os
        else some (ValReason.invalidBucketName bname tid)
      | _, _ => some ValReason.invalidStructure
    | none => some ValReason.invalidStructure

/-- The strict validation block of `processSingleBatch` (parallel revision of
the classify route), deciding `batchIsValid` and the `validationError`. -/
def validateBatch (bucketNamesOnly : List String) (batch : List Email)
    (raw : RawOutput) : ValidationOutcome :=
  match raw with
  | RawOutput.notArr t => ValidationOutcome.err (ValReason.notArray t)
  | RawOutput.arr items =>
    if items.length ≠ batch.length then
      ValidationOutcome.err (ValReason.wrongLength items.length batch.length)
    else
      let resultIds := stringThreadIds items
      if ¬ resultIds.Nodup then
        ValidationOutcome.err ValReason.duplicateIds
      else
        let inputSet := firstDedup (batch.map Email.threadId)
        if resultIds.length ≠ inputSet.length then
          ValidationOutcome.err (ValReason.countMismatch inputSet.length resultIds.length)
        else
          match inputSet.find? (fun i => ! resultIds.contains i) with
          | some missing => ValidationOutcome.err (ValReason.missingId missing)
          | none =>
            match checkItems bucketNamesOnly items with
            | some r => ValidationOutcome.err r
            | none => ValidationOutcome.ok

/-- The rule behind each rejection reason, as stated over the raw output, the
batch and the bucket name set: what must hold of the input for the validator
to report that specific reason. -/
def reasonHolds (bucketNamesOnly : List String) (batch : List Email)
    (raw : RawOutput) : ValReason → Prop
  | ValReason.notArray t => raw = RawOutput.notArr t
  | ValReason.wrongLength got expected =>
      ∃ items, raw = RawOutput.arr items ∧ items.length = got
        ∧ batch.length = expected ∧ got ≠ expected
  | ValReason.duplicateIds =>
      ∃ items, raw = RawOutput.arr items ∧ ¬ (stringThreadIds items).Nodup
  | ValReason.countMismatch inputCount resultCount =>
      ∃ items, raw = RawOutput.arr items
        ∧ inputCount = (firstDedup (batch.map Email.threadId)).length
        ∧ resultCount = (stringThreadIds items).length
        ∧ inputCount ≠ resultCount
  | ValReason.missingId tid =>
      ∃ items, raw = RawOutput.arr items ∧ tid ∈ batch.map Email.threadId
        ∧ ¬ tid ∈ stringThreadIds items
  | ValReason.invalidStructure =>
      ∃ items, raw = RawOutput.arr items
        ∧ ∃ o ∈ items, ∀ t b, o ≠ some ⟨JsVal.str t, JsVal.str b⟩
  | ValReason.invalidBucketName bname tid =>
      ∃ items, raw = RawOutput.arr items
        ∧ some ⟨JsVal.str tid, JsVal.str bname⟩ ∈ items ∧ ¬ bname ∈ bucketNamesOnly

/-- The `rawResults.forEach` insertion loop of the accepted path: each
`{threadId, bucketName}` pair is translated through `bucketNameToIdMapLookup`
and stored; `if (bucketId)` skips a failed lookup and (by JS truthiness) an
empty-string bucket id.  On the accepted path every element is a well-formed
pair, so the defensive arms that skip a malformed element are unreachable
there. -/
def insertStep (buckets : List Bucket) (m : List (String × String)) :
    Option RawItem → List (String × String)
  | some it =>
    match it.threadId, it.bucketName with
    | JsVal.str tid, JsVal.str bname =>
      match bucketNameToIdMapLookup buckets bname with
      | some bid => if bid ≠ "" then objInsert m tid bid else m
      | none => m
    | _, _ => m
  | none => m

def insertValidatedPairs (buckets : List Bucket)
    (items : List (Option RawItem)) : List (String × String) :=
  items.foldl (insertStep buckets) []

/-- `processSingleBatch` of the parallel classify route, the `generateObject`
call abstracted as the `response` argument: a thrown error (the `catch`
branches) or the raw resolved value. -/
def processSingleBatch (buckets : List Bucket) (batch : List Email)
    (response : Except GenError RawOutput) :
    List (String × String) × List BatchError :=
  let batchThreadIds := batch.map Email.threadId
  if batch.isEmpty then ([], [])
  else
    match response with
    | Except.error e =>
      ([], [{ batchThreadIds := batchThreadIds, error := genErrorMessage e }])
    | Except.ok raw =>
      match validateBatch (buckets.map Bucket.name) batch raw with
      | ValidationOutcome.err r =>
        ([], [{ batchThreadIds := batchThreadIds,
                error := "Validation Failed: " ++ validationMessage r }])
      | ValidationOutcome.ok =>
        match raw with
        | RawOutput.arr items => (insertValidatedPairs buckets items, [])
        | RawOutput.notArr _ => ([], [])

/-- The JSON body `{ classifications, errors }` returned by the route. -/
structure RunResult where
  classifications : List (String × String)
  errors : List BatchError
  deriving DecidableEq, Repr

/-- The `POST` handler of the parallel classify route after request-schema
validation: chunk the emails, process every batch independently (batch `i`
receiving model response `responses i`), then aggregate by `Object.assign`
merging of the classification maps and concatenation of the error lists.
`processSingleBatch` is total, so the `Promise.allSettled` rejected branch of
the aggregation loop is unreachable in the embedding. -/
def classifyRun (emails : List Email) (buckets : List Bucket)
    (responses : Nat → Except GenError RawOutput) : RunResult :=
  let chunks := chunkArray emails BATCH_SIZE
  let results := chunks.enum.map (fun p => processSingleBatch buckets p.2 (responses p.1))
  results.foldl
    (fun acc r =>
      { classifications := objAssign acc.classifications r.1,
        errors := acc.errors ++ r.2 })
    { classifications := [], errors := [] }

/-- The mutable state of the rate-limited dispatch loop. -/
structure DispatchState where
  requestCounter : Nat
  windowStartTime : Nat
  clock : Nat
  deriving DecidableEq, Repr

/-- The rate-limited dispatch loop of the route (`for` loop over
`emailChunks`), under an idealized clock: starting a batch is instantaneous and
only the `setTimeout` wait advances time.  Returns the start time of each
batch.  `Nat` subtraction equals the source's `Math.max(0, a - b)`. -/
def dispatchStartTimes (R W : Nat) : Nat → DispatchState → List Nat
  | 0, _ => []
  | n + 1, s =>
    let counter := s.requestCounter + 1
    if R ≤ counter then
      let delayNeeded := W - (s.clock - s.windowStartTime)
      let clock := s.clock + delayNeeded
      s.clock :: dispatchStartTimes R W n ⟨0, clock, clock⟩
    else
      s.clock :: dispatchStartTimes R W n ⟨counter, s.windowStartTime, s.clock⟩

/-- Start times of the `N` batches of one run, with the route's configured
rate (`RATE_PER_SECOND` starts per `1000 + RATE_LIMIT_DELAY_BUFFER_MS`
milliseconds window). -/
def startTimes (N : Nat) : List Nat :=
  dispatchStartTimes RATE_PER_SECOND (1000 + RATE_LIMIT_DELAY_BUFFER_MS) N ⟨0, 0, 0⟩

/-- Email data fetched from the Gmail API (`GmailApiEmailData` of
`src/lib/sync/sync.ts`). -/
structure GmailApiEmailData where
  id : String
  threadId : String
  subject : String
  sender : String
  preview : String
  date : String
  deriving DecidableEq, Repr

/-- An existing email row fetched from Supabase for comparison (only its id,
which stores the Gmail thread id). -/
structure SupabaseExistingEmail where
  id : String
  deriving DecidableEq, Repr

/-- The insert record prepared for a new thread (the fields of
`TablesInsert<'emails'>` that `prepareSyncActions` sets). -/
structure EmailInsert where
  id : String
  user_id : String
  bucket_id : Option String
  subject : String
  sender : String
  preview : String
  email_date : Option String
  last_fetched_at : String
  deriving DecidableEq, Repr

/-- The `SyncActions` result of `prepareSyncActions`. -/
structure SyncActions where
  emailsToUpsert : List EmailInsert
  existingGmailThreadIdsInLatestFetch : List String
  allLatestGmailThreadIds : List String
  deriving DecidableEq, Repr

/-- The record pushed onto `emailsToUpsert` for a new thread.  `toIso`
abstracts `new Date(d).toISOString()` and `now` the current timestamp, both
environment inputs of the embedding.  JS truthiness: an empty `date` string is
falsy, so it yields `email_date = null`. -/
def newEmailRecord (toIso : String → String) (now userId : String)
    (g : GmailApiEmailData) : EmailInsert :=
  { id := g.threadId
    user_id := userId
    bucket_id := none
    subject := g.subject
    sender := g.sender
    preview := g.preview
    email_date := if g.date ≠ "" then some (toIso g.date) else none
    last_fetched_at := now }

/-- `prepareSyncActions` of `src/lib/sync/sync.ts`: one pass over the fetched
list, pushing a new insert record when the thread id is not among the known
Supabase ids and recording the id as existing otherwise. -/
def prepareSyncActions (toIso : String → String) (now : String)
    (gmailEmails : List GmailApiEmailData)
    (supabaseEmails : List SupabaseExistingEmail) (userId : String) : SyncActions :=
  let supabaseThreadIds := supabaseEmails.map SupabaseExistingEmail.id
  let acc := gmailEmails.foldl
    (fun (acc : List EmailInsert × List String) g =>
      if ¬ g.threadId ∈ supabaseThreadIds then
        (acc.1 ++ [newEmailRecord toIso now userId g], acc.2)
      else
        (acc.1, acc.2 ++ [g.threadId]))
    ([], [])
  { emailsToUpsert := acc.1
    existingGmailThreadIdsInLatestFetch := acc.2
    allLatestGmailThreadIds := gmailEmails.map GmailApiEmailData.threadId }

/-- An email row as the classifier dialog receives it
(`EmailForClassification` of `EmailClassifierButton.tsx`). -/
structure EmailForClassification where
  id : String
  subject : Option String
  sender : Option String
  preview : Option String
  bucket_id : Option String
  deriving DecidableEq, Repr

/-- What `handleClassification` does before any network side effect: report
that nothing matched, report that no buckets exist, or call the classify API
with a payload. -/
inductive ClassifyDecision where
  | noneMatching
  | noBucketsAvailable
  | callApi (emails : List Email)
  deriving DecidableEq, Repr

/-- The selection filter of `handleClassification`:
`(email.bucket_id === null) || (email.bucket_id && selected.has(email.bucket_id))`.
JS truthiness: the second disjunct is false when `bucket_id` is the empty
string even if the empty string is in the selected set. -/
def emailsToActuallyClassify (allFetchedEmails : List EmailForClassification)
    (selectedBucketIds : List String) : List EmailForClassification :=
  allFetchedEmails.filter (fun email =>
    match email.bucket_id with
    | none => true
    | some b => b ≠ "" && selectedBucketIds.contains b)

/-- The mapping of a stored email to the classify API payload shape
(`threadId: e.id`, subject, sender, preview). -/
def toApiEmail (e : EmailForClassification) : Email :=
  { threadId := e.id, subject := e.subject, sender := e.sender, preview := e.preview }

/-- The decision logic of `handleClassification` (the revision that always
includes unclassified emails): filter, return early with an explicit message
when nothing matches or no buckets exist, otherwise call the classify API with
the filtered emails mapped to the payload shape. -/
def handleClassification (allFetchedEmails : List EmailForClassification)
    (selectedBucketIds : List String) (availableBuckets : List Bucket) :
    ClassifyDecision :=
  let chosen := emailsToActuallyClassify allFetchedEmails selectedBucketIds
  if chosen.isEmpty then ClassifyDecision.noneMatching
  else if availableBuckets.isEmpty then ClassifyDecision.noBucketsAvailable
  else ClassifyDecision.callApi (chosen.map toApiEmail)

/-- The working set as the spec describes it, written from the spec's words for
comparison with `emailsToActuallyClassify`: the union of (a) the emails with
`bucket_id = null` and (b) the emails whose current `bucket_id` is in the
chosen set. -/
def specWorkingSet (allFetchedEmails : List EmailForClassification)
    (selectedBucketIds : List String) : List EmailForClassification :=
  allFetchedEmails.filter (fun e =>
    e.bucket_id = none || e.bucket_id.any (fun b => selectedBucketIds.contains b))

end Concierge

namespace Concierge

theorem chunkArray_nil (size : Nat) : chunkArray ([] : List α) size = [] := by
  cases size <;> simp [chunkArray]

theorem chunkArray_cons (l : List α) (size : Nat) (hs : size ≠ 0) (hl : l ≠ []) :
    chunkArray l size = l.take size :: chunkArray (l.drop size) size := by
  cases l with
  | nil => exact absurd rfl hl
  | cons a as =>
    cases size with
    | zero => exact absurd rfl hs
    | succ n => simp [chunkArray]

/-- Strong-induction helper for reasoning along the recursion of `chunkArray`. -/
theorem chunkArray_rec_prop (size : Nat) (hs : size ≠ 0)
    (P : List α → Prop)
    (hnil : P [])
    (hstep : ∀ l : List α, l ≠ [] → P (l.drop size) → P l) :
    ∀ l : List α, P l := by
  have key : ∀ n, ∀ l : List α, l.length ≤ n → P l := by
    intro n
    induction n with
    | zero =>
      intro l h
      have : l = [] := List.length_eq_zero.mp (Nat.le_zero.mp h)
      rw [this]; exact hnil
    | succ n ih =>
      intro l h
      cases l with
      | nil => exact hnil
      | cons a as =>
        refine hstep (a :: as) (by simp) (ih _ ?_)
        have hpos : 0 < size := Nat.pos_of_ne_zero hs
        simp only [List.length_drop, List.length_cons] at h ⊢
        omega
  intro l
  exact key l.length l le_rfl

/-- Concatenating the chunks restores the input list. -/
theorem chunkArray_flatten (size : Nat) (hs : size ≠ 0) (l : List α) :
    (chunkArray l size).flatten = l := by
  induction l using chunkArray_rec_prop size hs with
  | hnil => simp [chunkArray_nil]
  | hstep l hl ih =>
    rw [chunkArray_cons l size hs hl]
    simp [ih]

/-- A short input (at most one chunk's worth) yields exactly one chunk: the list itself. -/
theorem chunkArray_of_le (size : Nat) (hs : size ≠ 0) (l : List α) (hl : l ≠ [])
    (h : l.length ≤ size) : chunkArray l size = [l] := by
  rw [chunkArray_cons l size hs hl, List.take_of_length_le h,
    List.drop_eq_nil_of_le h, chunkArray_nil]

/-- Every chunk is nonempty and no longer than the requested size. -/
theorem chunkArray_mem_length (size : Nat) (hs : size ≠ 0) (l : List α) :
    ∀ c ∈ chunkArray l size, c ≠ [] ∧ c.length ≤ size := by
  induction l using chunkArray_rec_prop size hs with
  | hnil => simp [chunkArray_nil]
  | hstep l hl ih =>
    rw [chunkArray_cons l size hs hl]
    intro c hc
    rcases List.mem_cons.mp hc with hc | hc
    · subst hc
      constructor
      · simp [List.take_eq_nil_iff, hs, hl]
      · simp
    · exact ih c hc

/-- Every chunk except possibly the last is exactly full. -/
theorem chunkArray_dropLast_length (size : Nat) (hs : size ≠ 0) (l : List α) :
    ∀ c ∈ (chunkArray l size).dropLast, c.length = size := by
  induction l using chunkArray_rec_prop size hs with
  | hnil => simp [chunkArray_nil]
  | hstep l hl ih =>
    rw [chunkArray_cons l size hs hl]
    cases hrest : chunkArray (l.drop size) size with
    | nil => simp
    | cons r rs =>
      intro c hc
      rw [List.dropLast_cons₂] at hc
      rcases List.mem_cons.mp hc with hc | hc
      · subst hc
        have hdrop : l.drop size ≠ [] := by
          intro hd
          rw [hd, chunkArray_nil] at hrest
          exact List.cons_ne_nil r rs hrest.symm
        have hlen : size < l.length := by
          by_contra hle
          exact hdrop (List.drop_eq_nil_of_le (Nat.le_of_not_lt hle))
        simp [Nat.le_of_lt hlen]
      · rw [← hrest] at hc
        exact ih c hc

/-- A nonempty input yields a nonempty chunk list. -/
theorem chunkArray_ne_nil (size : Nat) (hs : size ≠ 0) (l : List α) (hl : l ≠ []) :
    chunkArray l size ≠ [] := by
  rw [chunkArray_cons l size hs hl]
  exact List.cons_ne_nil _ _

/-- C7: for every non-empty email list and batch-size limit `s ≥ 1`, `chunkArray`
partitions the list into contiguous chunks whose concatenation equals the input,
every chunk except possibly the last has length exactly `s`, every chunk (the
last included) has length between 1 and `s`; and in particular an input of
length 1 yields one batch, length `s` yields one batch, and length `s + 1`
yields two batches of sizes `s` and `1`. -/
theorem chunkArray_partitions_into_full_chunks (s : Nat) (l : List Email)
    (hs : 1 ≤ s) (hl : l ≠ []) :
    (chunkArray l s).flatten = l
    ∧ (∀ c ∈ (chunkArray l s).dropLast, c.length = s)
    ∧ (∀ c ∈ chunkArray l s, 1 ≤ c.length ∧ c.length ≤ s)
    ∧ (l.length = 1 → (chunkArray l s).length = 1)
    ∧ (l.length = s → (chunkArray l s).length = 1)
    ∧ (l.length = s + 1 → (chunkArray l s).map List.length = [s, 1]) := by
  have hs' : s ≠ 0 := by omega
  refine ⟨chunkArray_flatten s hs' l, chunkArray_dropLast_length s hs' l, ?_, ?_, ?_, ?_⟩
  · intro c hc
    have h := chunkArray_mem_length s hs' l c hc
    exact ⟨List.length_pos.mpr h.1, h.2⟩
  · intro h1
    rw [chunkArray_of_le s hs' l hl (by omega)]
    rfl
  · intro h1
    rw [chunkArray_of_le s hs' l hl (by omega)]
    rfl
  · intro h1
    have hdrop : (l.drop s).length = 1 := by
      simp [h1]
    have hdrop_ne : l.drop s ≠ [] := by
      intro hd
      rw [hd] at hdrop
      exact absurd hdrop (by simp)
    rw [chunkArray_cons l s hs' hl,
      chunkArray_of_le s hs' (l.drop s) hdrop_ne (by omega)]
    simp [h1, hdrop]

/-- Witness for C7 at a concrete input: three emails with batch size 2 give two
batches of sizes 2 and 1. -/
theorem chunkArray_partitions_into_full_chunks_witness :
    (chunkArray [(⟨"t1", none, none, none⟩ : Email), ⟨"t2", none, none, none⟩,
      ⟨"t3", none, none, none⟩] 2).map List.length = [2, 1] :=
  (chunkArray_partitions_into_full_chunks 2
    [⟨"t1", none, none, none⟩, ⟨"t2", none, none, none⟩, ⟨"t3", none, none, none⟩]
    (by decide) (by decide)).2.2.2.2.2 rfl

/-! ## Sync reconciler -/

theorem prepareSync_foldl (toIso : String → String) (now userId : String)
    (ids : List String) :
    ∀ (gs : List GmailApiEmailData) (acc : List EmailInsert × List String),
      gs.foldl
        (fun (acc : List EmailInsert × List String) g =>
          if ¬ g.threadId ∈ ids then
            (acc.1 ++ [newEmailRecord toIso now userId g], acc.2)
          else
            (acc.1, acc.2 ++ [g.threadId]))
        acc
      = (acc.1 ++ (gs.filter (fun g => ¬ g.threadId ∈ ids)).map
            (newEmailRecord toIso now userId),
         acc.2 ++ (gs.filter (fun g => g.threadId ∈ ids)).map
            GmailApiEmailData.threadId) := by
  intro gs
  induction gs with
  | nil => intro acc; simp
  | cons g gs ih =>
    intro acc
    rw [List.foldl_cons]
    by_cases h : g.threadId ∈ ids
    · rw [if_neg (not_not_intro h), ih]
      simp [List.filter_cons, h]
    · rw [if_pos h, ih]
      simp [List.filter_cons, h]

/-- The closed form of `prepareSyncActions`: a filter-and-map over the fetched
list against the known-id set. -/
theorem prepareSyncActions_eq (toIso : String → String) (now : String)
    (gmailEmails : List GmailApiEmailData)
    (supabaseEmails : List SupabaseExistingEmail) (userId : String) :
    prepareSyncActions toIso now gmailEmails supabaseEmails userId =
      { emailsToUpsert :=
          (gmailEmails.filter
            (fun g => ¬ g.threadId ∈ supabaseEmails.map SupabaseExistingEmail.id)).map
            (newEmailRecord toIso now userId)
        existingGmailThreadIdsInLatestFetch :=
          (gmailEmails.filter
            (fun g => g.threadId ∈ supabaseEmails.map SupabaseExistingEmail.id)).map
            GmailApiEmailData.threadId
        allLatestGmailThreadIds := gmailEmails.map GmailApiEmailData.threadId } := by
  unfold prepareSyncActions
  simp only [prepareSync_foldl toIso now userId
    (supabaseEmails.map SupabaseExistingEmail.id)]
  simp

/-- C5: for every fetched thread list and known-id set, `emailsToUpsert` holds
exactly the fetched entries whose thread id is not known, each converted to a
record with `bucket_id = null` and the thread id as primary key; every
already-known fetched id is returned in `existingGmailThreadIdsInLatestFetch`
and produces no record; and no genuinely new entry is dropped. -/
theorem prepareSyncActions_diff_exact (toIso : String → String) (now : String)
    (gmailEmails : List GmailApiEmailData)
    (supabaseEmails : List SupabaseExistingEmail) (userId : String) :
    (prepareSyncActions toIso now gmailEmails supabaseEmails userId).emailsToUpsert
      = (gmailEmails.filter
          (fun g => ¬ g.threadId ∈ supabaseEmails.map SupabaseExistingEmail.id)).map
          (newEmailRecord toIso now userId)
    ∧ (∀ r ∈ (prepareSyncActions toIso now gmailEmails supabaseEmails userId).emailsToUpsert,
        r.bucket_id = none
        ∧ r.id ∈ gmailEmails.map GmailApiEmailData.threadId
        ∧ ¬ r.id ∈ supabaseEmails.map SupabaseExistingEmail.id)
    ∧ (∀ g ∈ gmailEmails, ¬ g.threadId ∈ supabaseEmails.map SupabaseExistingEmail.id →
        newEmailRecord toIso now userId g
          ∈ (prepareSyncActions toIso now gmailEmails supabaseEmails userId).emailsToUpsert)
    ∧ (prepareSyncActions toIso now gmailEmails supabaseEmails userId).existingGmailThreadIdsInLatestFetch
      = (gmailEmails.filter
          (fun g => g.threadId ∈ supabaseEmails.map SupabaseExistingEmail.id)).map
          GmailApiEmailData.threadId
    ∧ (∀ g ∈ gmailEmails, g.threadId ∈ supabaseEmails.map SupabaseExistingEmail.id →
        g.threadId ∈ (prepareSyncActions toIso now gmailEmails
          supabaseEmails userId).existingGmailThreadIdsInLatestFetch) := by
  rw [prepareSyncActions_eq]
  refine ⟨rfl, ?_, ?_, rfl, ?_⟩
  · intro r hr
    simp only [List.mem_map, List.mem_filter] at hr
    obtain ⟨g, ⟨hg, hnew⟩, hrec⟩ := hr
    subst hrec
    refine ⟨rfl, ?_, ?_⟩
    · exact List.mem_map_of_mem GmailApiEmailData.threadId hg
    · simpa using hnew
  · intro g hg hnew
    refine List.mem_map_of_mem (newEmailRecord toIso now userId) ?_
    rw [List.mem_filter]
    exact ⟨hg, by simpa using hnew⟩
  · intro g hg hknown
    refine List.mem_map_of_mem GmailApiEmailData.threadId ?_
    rw [List.mem_filter]
    exact ⟨hg, by simpa using hknown⟩

/-- Witness for C5 at a concrete input: one known and one new thread. -/
theorem prepareSyncActions_diff_exact_witness :
    (prepareSyncActions (fun s => s) "now"
        [⟨"m1", "known", "s1", "f1", "p1", "d1"⟩, ⟨"m2", "fresh", "s2", "f2", "p2", "d2"⟩]
        [⟨"known"⟩] "u").emailsToUpsert
      = [newEmailRecord (fun s => s) "now" "u" ⟨"m2", "fresh", "s2", "f2", "p2", "d2"⟩]
    ∧ newEmailRecord (fun s => s) "now" "u" ⟨"m2", "fresh", "s2", "f2", "p2", "d2"⟩
        ∈ (prepareSyncActions (fun s => s) "now"
            [⟨"m1", "known", "s1", "f1", "p1", "d1"⟩, ⟨"m2", "fresh", "s2", "f2", "p2", "d2"⟩]
            [⟨"known"⟩] "u").emailsToUpsert := by
  have h := prepareSyncActions_diff_exact (fun s => s) "now"
    [⟨"m1", "known", "s1", "f1", "p1", "d1"⟩, ⟨"m2", "fresh", "s2", "f2", "p2", "d2"⟩]
    [⟨"known"⟩] "u"
  exact ⟨h.1.trans (by decide), h.2.2.1 ⟨"m2", "fresh", "s2", "f2", "p2", "d2"⟩
    (by decide) (by decide)⟩

/-- C4 counterexample: two fetch entries with the same unknown thread id are
both kept, so `emailsToUpsert` holds two records for the id `"t"` — the claimed
last-seen-wins deduplication does not happen. -/
theorem prepareSyncActions_duplicate_not_deduplicated :
    ((prepareSyncActions (fun s => s) "now"
        [⟨"m1", "t", "s1", "f1", "p1", "d1"⟩, ⟨"m2", "t", "s2", "f2", "p2", "d2"⟩]
        [] "u").emailsToUpsert.map EmailInsert.id) = ["t", "t"] := by
  decide

/-- C4 amended: `prepareSyncActions` performs no deduplication — for every
thread id, the number of upsert records carrying it equals the number of
not-yet-known fetched entries carrying it, so duplicated new ids yield
duplicated records (one per occurrence) rather than a single last-seen one. -/
theorem prepareSyncActions_record_count (toIso : String → String) (now : String)
    (gmailEmails : List GmailApiEmailData)
    (supabaseEmails : List SupabaseExistingEmail) (userId t : String) :
    ((prepareSyncActions toIso now gmailEmails supabaseEmails userId).emailsToUpsert.countP
        (fun r => r.id = t))
      = gmailEmails.countP
          (fun g => g.threadId = t
            && ¬ g.threadId ∈ supabaseEmails.map SupabaseExistingEmail.id) := by
  rw [(prepareSyncActions_eq toIso now gmailEmails supabaseEmails userId :)]
  simp only [List.countP_map, List.countP_filter]
  refine List.countP_congr ?_
  intro g _
  simp [newEmailRecord, Function.comp, Bool.and_comm]

/-- Witness for C4's amended theorem at the counterexample input: the id `"t"`
occurs twice among the records because it occurs twice in the fetch. -/
theorem prepareSyncActions_record_count_witness :
    ((prepareSyncActions (fun s => s) "now"
        [⟨"m1", "t", "s1", "f1", "p1", "d1"⟩, ⟨"m2", "t", "s2", "f2", "p2", "d2"⟩]
        [] "u").emailsToUpsert.countP (fun r => r.id = "t")) = 2 := by
  rw [prepareSyncActions_record_count (fun s => s) "now"
    [⟨"m1", "t", "s1", "f1", "p1", "d1"⟩, ⟨"m2", "t", "s2", "f2", "p2", "d2"⟩] [] "u" "t"]
  decide

/-! ## Classification selector -/

/-- C6 counterexample: an email whose `bucket_id` is the empty string, with the
empty string among the chosen bucket ids.  The spec-side union contains the
email, but the code's truthiness test `email.bucket_id && selected.has(...)`
drops it, so the run reports nothing-to-do although the union is nonempty. -/
theorem handleClassification_empty_id_counterexample :
    specWorkingSet [⟨"e1", none, none, none, some ""⟩] [""]
        = [⟨"e1", none, none, none, some ""⟩]
    ∧ handleClassification [⟨"e1", none, none, none, some ""⟩] [""] [⟨"b", "B", none⟩]
        = ClassifyDecision.noneMatching := by
  decide

/-- C6 amended: provided the empty string is not among the chosen bucket ids,
the filtered working set is exactly the spec's union; when the union is empty
the API is not invoked and the explicit nothing-to-do result is reported; and
whenever the API is invoked, its payload is exactly the union mapped to the
request shape (which happens whenever the union is nonempty and at least one
bucket is available). -/
theorem handleClassification_selects_union (allFetchedEmails : List EmailForClassification)
    (selectedBucketIds : List String) (availableBuckets : List Bucket)
    (h : ¬ "" ∈ selectedBucketIds) :
    emailsToActuallyClassify allFetchedEmails selectedBucketIds
      = specWorkingSet allFetchedEmails selectedBucketIds
    ∧ (specWorkingSet allFetchedEmails selectedBucketIds = [] →
        handleClassification allFetchedEmails selectedBucketIds availableBuckets
          = ClassifyDecision.noneMatching)
    ∧ (∀ payload, handleClassification allFetchedEmails selectedBucketIds availableBuckets
          = ClassifyDecision.callApi payload →
        payload = (specWorkingSet allFetchedEmails selectedBucketIds).map toApiEmail)
    ∧ (specWorkingSet allFetchedEmails selectedBucketIds ≠ [] → availableBuckets ≠ [] →
        handleClassification allFetchedEmails selectedBucketIds availableBuckets
          = ClassifyDecision.callApi
              ((specWorkingSet allFetchedEmails selectedBucketIds).map toApiEmail)) := by
  have hfilter : emailsToActuallyClassify allFetchedEmails selectedBucketIds
      = specWorkingSet allFetchedEmails selectedBucketIds := by
    unfold emailsToActuallyClassify specWorkingSet
    refine List.filter_congr ?_
    intro e _
    cases hb : e.bucket_id with
    | none => simp
    | some b =>
      simp only [Option.any_some]
      cases hc : selectedBucketIds.contains b with
      | false => simp [hc]
      | true =>
        have hbne : b ≠ "" := by
          intro hb0
          subst hb0
          exact h (List.elem_iff.mp hc)
        simp [hc, hbne]
  refine ⟨hfilter, ?_, ?_, ?_⟩
  · intro hempty
    unfold handleClassification
    rw [hfilter, hempty]
    rfl
  · intro payload hcall
    unfold handleClassification at hcall
    rw [hfilter] at hcall
    by_cases hempty : specWorkingSet allFetchedEmails selectedBucketIds = []
    · rw [hempty] at hcall
      exact absurd hcall (by simp)
    · rw [if_neg (by simpa [List.isEmpty_iff] using hempty)] at hcall
      by_cases hbk : availableBuckets = []
      · rw [if_pos (by simpa [List.isEmpty_iff] using hbk)] at hcall
        exact absurd hcall (by simp)
      · rw [if_neg (by simpa [List.isEmpty_iff] using hbk)] at hcall
        exact (ClassifyDecision.callApi.injEq _ _ ▸ congrArg id hcall) ▸ rfl
  · intro hne hbk
    unfold handleClassification
    rw [hfilter, if_neg (by simpa [List.isEmpty_iff] using hne),
      if_neg (by simpa [List.isEmpty_iff] using hbk)]

/-- Witness for C6's amended theorem: an unclassified email and one in a
chosen bucket are both submitted; an email in an unchosen bucket is not. -/
theorem handleClassification_selects_union_witness :
    handleClassification
        [⟨"e1", none, none, none, none⟩, ⟨"e2", none, none, none, some "b1"⟩,
          ⟨"e3", none, none, none, some "b2"⟩]
        ["b1"] [⟨"b1", "A", none⟩]
      = ClassifyDecision.callApi
          [⟨"e1", none, none, none⟩, ⟨"e2", none, none, none⟩] := by
  have h := (handleClassification_selects_union
    [⟨"e1", none, none, none, none⟩, ⟨"e2", none, none, none, some "b1"⟩,
      ⟨"e3", none, none, none, some "b2"⟩]
    ["b1"] [⟨"b1", "A", none⟩] (by decide)).2.2.2 (by decide) (by decide)
  rw [h]
  decide

/-! ## Response validator -/

/-- Membership in the `Set` insertion loop: in the remaining input and not yet
seen. -/
theorem mem_firstDedupAux (a : String) :
    ∀ (l seen : List String), a ∈ firstDedupAux seen l ↔ a ∈ l ∧ ¬ a ∈ seen := by
  intro l
  induction l with
  | nil => intro seen; simp [firstDedupAux]
  | cons b bs ih =>
    intro seen
    by_cases hb : b ∈ seen
    · rw [firstDedupAux, if_pos hb, ih]
      constructor
      · rintro ⟨hmem, hseen⟩
        exact ⟨List.mem_cons_of_mem _ hmem, hseen⟩
      · rintro ⟨hmem, hseen⟩
        rcases List.mem_cons.mp hmem with rfl | hmem'
        · exact absurd hb hseen
        · exact ⟨hmem', hseen⟩
    · rw [firstDedupAux, if_neg hb]
      by_cases hab : a = b
      · subst hab
        simp [hb]
      · simp [hab, ih]

/-- `firstDedup` keeps exactly the members of the list. -/
theorem mem_firstDedup (a : String) : ∀ l : List String, a ∈ firstDedup l ↔ a ∈ l := by
  intro l
  unfold firstDedup
  rw [mem_firstDedupAux]
  simp

/-- The `Set` insertion loop yields a duplicate-free list. -/
theorem nodup_firstDedupAux :
    ∀ (l seen : List String), (firstDedupAux seen l).Nodup := by
  intro l
  induction l with
  | nil => intro seen; simp [firstDedupAux]
  | cons b bs ih =>
    intro seen
    by_cases hb : b ∈ seen
    · rw [firstDedupAux, if_pos hb]
      exact ih seen
    · rw [firstDedupAux, if_neg hb]
      refine List.nodup_cons.mpr ⟨?_, ih (b :: seen)⟩
      intro hmem
      have := ((mem_firstDedupAux b bs (b :: seen)).mp hmem).2
      simp at this

/-- `firstDedup` yields a duplicate-free list. -/
theorem nodup_firstDedup : ∀ l : List String, (firstDedup l).Nodup := by
  intro l
  exact nodup_firstDedupAux l []

/-- The structure-and-bucket loop accepts exactly the arrays whose elements are
all well-formed pairs with a known bucket name. -/
theorem checkItems_eq_none (names : List String) :
    ∀ items : List (Option RawItem),
      checkItems names items = none
        ↔ ∀ o ∈ items, ∃ t b, o = some ⟨JsVal.str t, JsVal.str b⟩ ∧ b ∈ names := by
  intro items
  induction items with
  | nil => simp [checkItems]
  | cons o os ih =>
    cases o with
    | none =>
      constructor
      · intro h
        exact absurd h (by simp [checkItems])
      · intro h
        obtain ⟨t, b, heq, _⟩ := h _ (List.mem_cons_self _ _)
        simp at heq
    | some it =>
      obtain ⟨ti, bn⟩ := it
      cases ti with
      | nonstr =>
        constructor
        · intro h
          exact absurd h (by simp [checkItems])
        · intro h
          obtain ⟨t, b, heq, _⟩ := h _ (List.mem_cons_self _ _)
          simp at heq
      | str tid =>
        cases bn with
        | nonstr =>
          constructor
          · intro h
            exact absurd h (by simp [checkItems])
          · intro h
            obtain ⟨t, b, heq, _⟩ := h _ (List.mem_cons_self _ _)
            simp at heq
        | str bname =>
          by_cases hb : bname ∈ names
          · have hred : checkItems names (some ⟨JsVal.str tid, JsVal.str bname⟩ :: os)
                = checkItems names os := by
              simp [checkItems, hb]
            rw [hred, ih]
            constructor
            · intro h o ho
              rcases List.mem_cons.mp ho with rfl | ho
              · exact ⟨tid, bname, rfl, hb⟩
              · exact h o ho
            · intro h o ho
              exact h o (List.mem_cons_of_mem _ ho)
          · constructor
            · intro h
              have hred : checkItems names (some ⟨JsVal.str tid, JsVal.str bname⟩ :: os)
                  = some (ValReason.invalidBucketName bname tid) := by
                simp [checkItems, hb]
              rw [hred] at h
              exact absurd h (by simp)
            · intro h
              obtain ⟨t, b, heq, hbm⟩ := h _ (List.mem_cons_self _ _)
              simp only [Option.some.injEq, RawItem.mk.injEq, JsVal.str.injEq] at heq
              obtain ⟨h1, h2⟩ := heq
              subst h1
              subst h2
              exact absurd hbm hb

/-- When the structure-and-bucket loop rejects, the reason it reports is sound:
either an element is malformed, or a well-formed element carries an unknown
bucket name. -/
theorem checkItems_eq_some (names : List String) :
    ∀ items : List (Option RawItem), ∀ r,
      checkItems names items = some r →
        (r = ValReason.invalidStructure
          ∧ ∃ o ∈ items, ∀ t b, o ≠ some ⟨JsVal.str t, JsVal.str b⟩)
        ∨ (∃ t b, r = ValReason.invalidBucketName b t
            ∧ some ⟨JsVal.str t, JsVal.str b⟩ ∈ items ∧ ¬ b ∈ names) := by
  intro items
  induction items with
  | nil =>
    intro r h
    exact absurd h (by simp [checkItems])
  | cons o os ih =>
    intro r h
    cases o with
    | none =>
      have hr : r = ValReason.invalidStructure := by
        simp only [checkItems] at h
        exact (Option.some.inj h).symm
      refine Or.inl ⟨hr, none, List.mem_cons_self _ _, ?_⟩
      intro t b
      simp
    | some it =>
      obtain ⟨ti, bn⟩ := it
      cases ti with
      | nonstr =>
        have hr : r = ValReason.invalidStructure := by
          simp only [checkItems] at h
          exact (Option.some.inj h).symm
        refine Or.inl ⟨hr, some ⟨JsVal.nonstr, bn⟩, List.mem_cons_self _ _, ?_⟩
        intro t b heq
        simp at heq
      | str tid =>
        cases bn with
        | nonstr =>
          have hr : r = ValReason.invalidStructure := by
            simp only [checkItems] at h
            exact (Option.some.inj h).symm
          refine Or.inl ⟨hr, some ⟨JsVal.str tid, JsVal.nonstr⟩, List.mem_cons_self _ _, ?_⟩
          intro t b heq
          simp at heq
        | str bname =>
          by_cases hb : bname ∈ names
          · have hred : checkItems names (some ⟨JsVal.str tid, JsVal.str bname⟩ :: os)
                = checkItems names os := by
              simp [checkItems, hb]
            rw [hred] at h
            rcases ih r h with ⟨hr, o, ho, hmal⟩ | ⟨t, b, hr, hmem, hnb⟩
            · exact Or.inl ⟨hr, o, List.mem_cons_of_mem _ ho, hmal⟩
            · exact Or.inr ⟨t, b, hr, List.mem_cons_of_mem _ hmem, hnb⟩
          · have hred : checkItems names (some ⟨JsVal.str tid, JsVal.str bname⟩ :: os)
                = some (ValReason.invalidBucketName bname tid) := by
              simp [checkItems, hb]
            rw [hred] at h
            refine Or.inr ⟨tid, bname, (Option.some.inj h).symm, List.mem_cons_self _ _, hb⟩

/-- If every element of the raw array is a well-formed pair, the
duplicate-detection loop reads exactly one id per element. -/
theorem stringThreadIds_length_of_proper (items : List (Option RawItem))
    (h : ∀ o ∈ items, ∃ t b, o = some ⟨JsVal.str t, JsVal.str b⟩) :
    (stringThreadIds items).length = items.length := by
  induction items with
  | nil => simp [stringThreadIds]
  | cons o os ih =>
    obtain ⟨t, b, rfl⟩ := h o (List.mem_cons_self _ _)
    simp only [stringThreadIds, List.filterMap_cons] at ih ⊢
    simp only [List.length_cons]
    rw [ih]
    intro o ho
    exact h o (List.mem_cons_of_mem _ ho)

/-- Branch form of `validateBatch` on an array, with the `let`-bound
intermediates expanded (definitional). -/
theorem validateBatch_arr (names : List String) (batch : List Email)
    (items : List (Option RawItem)) :
    validateBatch names batch (RawOutput.arr items) =
      (if items.length ≠ batch.length then
        ValidationOutcome.err (ValReason.wrongLength items.length batch.length)
      else if ¬ (stringThreadIds items).Nodup then
        ValidationOutcome.err ValReason.duplicateIds
      else if (stringThreadIds items).length
          ≠ (firstDedup (batch.map Email.threadId)).length then
        ValidationOutcome.err (ValReason.countMismatch
          (firstDedup (batch.map Email.threadId)).length (stringThreadIds items).length)
      else
        match (firstDedup (batch.map Email.threadId)).find?
            (fun i => ! (stringThreadIds items).contains i) with
        | some missing => ValidationOutcome.err (ValReason.missingId missing)
        | none =>
          match checkItems names items with
          | some r => ValidationOutcome.err r
          | none => ValidationOutcome.ok) :=
  rfl

/-- Full specification of the strict validation block: acceptance is
equivalent to the conjunction of the six rules, and every rejection reports a
sound reason. -/
theorem validateBatch_spec (bucketNamesOnly : List String) (batch : List Email)
    (raw : RawOutput) :
    (validateBatch bucketNamesOnly batch raw = ValidationOutcome.ok
      ↔ ∃ items, raw = RawOutput.arr items
          ∧ items.length = batch.length
          ∧ (∀ o ∈ items, ∃ t b, o = some ⟨JsVal.str t, JsVal.str b⟩)
          ∧ (stringThreadIds items).Nodup
          ∧ (∀ t, t ∈ stringThreadIds items ↔ t ∈ batch.map Email.threadId)
          ∧ (∀ o ∈ items, ∀ t b, o = some ⟨JsVal.str t, JsVal.str b⟩ →
              b ∈ bucketNamesOnly))
    ∧ (∀ r, validateBatch bucketNamesOnly batch raw = ValidationOutcome.err r →
        reasonHolds bucketNamesOnly batch raw r) := by
  cases raw with
  | notArr t =>
    constructor
    · constructor
      · intro h
        exact absurd h (by simp [validateBatch])
      · rintro ⟨items, heq, -⟩
        exact absurd heq (by simp)
    · intro r hr
      have : r = ValReason.notArray t := by
        simp only [validateBatch] at hr
        exact (ValidationOutcome.err.inj hr).symm
      rw [this]
      rfl
  | arr items =>
    by_cases hlen : items.length = batch.length
    case neg =>
      have hv : validateBatch bucketNamesOnly batch (RawOutput.arr items)
          = ValidationOutcome.err (ValReason.wrongLength items.length batch.length) := by
        rw [validateBatch_arr, if_pos hlen]
      constructor
      · constructor
        · intro h
          rw [hv] at h
          exact absurd h (by simp)
        · rintro ⟨items', heq, hlen', -⟩
          have : items' = items := by
            injection heq with h
            exact h.symm
          rw [this] at hlen'
          exact absurd hlen' hlen
      · intro r hr
        rw [hv] at hr
        have : r = ValReason.wrongLength items.length batch.length :=
          (ValidationOutcome.err.inj hr).symm
        rw [this]
        exact ⟨items, rfl, rfl, rfl, hlen⟩
    case pos =>
      by_cases hdup : (stringThreadIds items).Nodup
      case neg =>
        have hv : validateBatch bucketNamesOnly batch (RawOutput.arr items)
            = ValidationOutcome.err ValReason.duplicateIds := by
          rw [validateBatch_arr, if_neg (not_not_intro hlen), if_pos hdup]
        constructor
        · constructor
          · intro h
            rw [hv] at h
            exact absurd h (by simp)
          · rintro ⟨items', heq, -, -, hnd, -⟩
            have : items' = items := by
              injection heq with h
              exact h.symm
            rw [this] at hnd
            exact absurd hnd hdup
        · intro r hr
          rw [hv] at hr
          have : r = ValReason.duplicateIds := (ValidationOutcome.err.inj hr).symm
          rw [this]
          exact ⟨items, rfl, hdup⟩
      case pos =>
        by_cases hcount : (stringThreadIds items).length
            = (firstDedup (batch.map Email.threadId)).length
        case neg =>
          have hv : validateBatch bucketNamesOnly batch (RawOutput.arr items)
              = ValidationOutcome.err (ValReason.countMismatch
                  (firstDedup (batch.map Email.threadId)).length
                  (stringThreadIds items).length) := by
            rw [validateBatch_arr, if_neg (not_not_intro hlen),
              if_neg (not_not_intro hdup), if_pos hcount]
          constructor
          · constructor
            · intro h
              rw [hv] at h
              exact absurd h (by simp)
            · rintro ⟨items', heq, hlen', hprop, hnd, hmem, -⟩
              have heq' : items' = items := by
                injection heq with h
                exact h.symm
              rw [heq'] at hlen' hprop hnd hmem
              refine absurd ?_ hcount
              have h1 : (stringThreadIds items).toFinset
                  = (firstDedup (batch.map Email.threadId)).toFinset := by
                ext x
                simp only [List.mem_toFinset]
                rw [hmem x, mem_firstDedup]
              calc (stringThreadIds items).length
                  = (stringThreadIds items).toFinset.card :=
                    (List.toFinset_card_of_nodup hnd).symm
                _ = (firstDedup (batch.map Email.threadId)).toFinset.card := by rw [h1]
                _ = (firstDedup (batch.map Email.threadId)).length :=
                    List.toFinset_card_of_nodup (nodup_firstDedup _)
          · intro r hr
            rw [hv] at hr
            have : r = ValReason.countMismatch
                (firstDedup (batch.map Email.threadId)).length
                (stringThreadIds items).length :=
              (ValidationOutcome.err.inj hr).symm
            rw [this]
            exact ⟨items, rfl, rfl, rfl, fun h => hcount h.symm⟩
        case pos =>
          cases hfind : (firstDedup (batch.map Email.threadId)).find?
              (fun i => ! (stringThreadIds items).contains i) with
          | some missing =>
            have hv : validateBatch bucketNamesOnly batch (RawOutput.arr items)
                = ValidationOutcome.err (ValReason.missingId missing) := by
              rw [validateBatch_arr, if_neg (not_not_intro hlen),
                if_neg (not_not_intro hdup), if_neg (not_not_intro hcount), hfind]
            have hmem : missing ∈ firstDedup (batch.map Email.threadId) :=
              List.mem_of_find?_eq_some hfind
            have hnotin : ¬ missing ∈ stringThreadIds items := by
              have := List.find?_some hfind
              simp only [Bool.not_eq_true', ← Bool.not_eq_true] at this
              intro hmem'
              exact this (List.elem_iff.mpr hmem')
            constructor
            · constructor
              · intro h
                rw [hv] at h
                exact absurd h (by simp)
              · rintro ⟨items', heq, -, -, -, hmemiff, -⟩
                have heq' : items' = items := by
                  injection heq with h
                  exact h.symm
                rw [heq'] at hmemiff
                exact (hnotin ((hmemiff missing).mpr
                  ((mem_firstDedup missing _).mp hmem))).elim
            · intro r hr
              rw [hv] at hr
              have : r = ValReason.missingId missing :=
                (ValidationOutcome.err.inj hr).symm
              rw [this]
              exact ⟨items, rfl, (mem_firstDedup missing _).mp hmem, hnotin⟩
          | none =>
            have hall : ∀ i ∈ firstDedup (batch.map Email.threadId),
                i ∈ stringThreadIds items := by
              intro i hi
              have hni := List.find?_eq_none.mp hfind i hi
              rcases Bool.eq_false_or_eq_true ((stringThreadIds items).contains i) with
                hc | hc
              · exact List.elem_iff.mp hc
              · exact absurd (by rw [hc]; rfl) hni
            cases hchk : checkItems bucketNamesOnly items with
            | some r0 =>
              have hv : validateBatch bucketNamesOnly batch (RawOutput.arr items)
                  = ValidationOutcome.err r0 := by
                rw [validateBatch_arr, if_neg (not_not_intro hlen),
                  if_neg (not_not_intro hdup), if_neg (not_not_intro hcount), hfind, hchk]
              constructor
              · constructor
                · intro h
                  rw [hv] at h
                  exact absurd h (by simp)
                · rintro ⟨items', heq, -, hprop, -, -, hnames⟩
                  have heq' : items' = items := by
                    injection heq with h
                    exact h.symm
                  rw [heq'] at hprop hnames
                  have : checkItems bucketNamesOnly items = none :=
                    (checkItems_eq_none bucketNamesOnly items).mpr (fun o ho => by
                      obtain ⟨t, b, hob⟩ := hprop o ho
                      exact ⟨t, b, hob, hnames o ho t b hob⟩)
                  rw [hchk] at this
                  exact absurd this (by simp)
              · intro r hr
                rw [hv] at hr
                have hrr : r = r0 := (ValidationOutcome.err.inj hr).symm
                subst hrr
                rcases checkItems_eq_some bucketNamesOnly items r hchk with
                  ⟨hr0, o, ho, hmal⟩ | ⟨t, b, hr0, hmem', hnb⟩
                · rw [hr0]
                  exact ⟨items, rfl, o, ho, hmal⟩
                · rw [hr0]
                  exact ⟨items, rfl, hmem', hnb⟩
            | none =>
              have hv : validateBatch bucketNamesOnly batch (RawOutput.arr items)
                  = ValidationOutcome.ok := by
                rw [validateBatch_arr, if_neg (not_not_intro hlen),
                  if_neg (not_not_intro hdup), if_neg (not_not_intro hcount), hfind, hchk]
              have hpropnames := (checkItems_eq_none bucketNamesOnly items).mp hchk
              have hsubset : (firstDedup (batch.map Email.threadId)).toFinset
                  ⊆ (stringThreadIds items).toFinset := by
                intro x hx
                rw [List.mem_toFinset] at hx ⊢
                exact hall x hx
              have hfield : (firstDedup (batch.map Email.threadId)).toFinset
                  = (stringThreadIds items).toFinset := by
                refine Finset.eq_of_subset_of_card_le hsubset ?_
                rw [List.toFinset_card_of_nodup hdup,
                  List.toFinset_card_of_nodup (nodup_firstDedup _), hcount]
              constructor
              · constructor
                · intro _
                  refine ⟨items, rfl, hlen, ?_, hdup, ?_, ?_⟩
                  · intro o ho
                    obtain ⟨t, b, hob, -⟩ := hpropnames o ho
                    exact ⟨t, b, hob⟩
                  · intro t
                    constructor
                    · intro ht
                      have : t ∈ (firstDedup (batch.map Email.threadId)).toFinset := by
                        rw [hfield, List.mem_toFinset]
                        exact ht
                      rw [List.mem_toFinset, mem_firstDedup] at this
                      exact this
                    · intro ht
                      exact hall t ((mem_firstDedup t _).mpr ht)
                  · intro o ho t b hob
                    obtain ⟨t', b', hob', hb'⟩ := hpropnames o ho
                    rw [hob] at hob'
                    have : b = b' := by
                      have h1 := Option.some.inj hob'
                      have h2 : JsVal.str b = JsVal.str b' :=
                        congrArg RawItem.bucketName h1
                      exact JsVal.str.inj h2
                    rw [this]
                    exact hb'
                · intro _
                  exact hv
              · intro r hr
                rw [hv] at hr
                exact absurd hr (by simp)

/-- C2: the validator accepts a batch if and only if the output is an array of
exactly the batch's length whose elements are all well-formed string pairs,
the returned ids are duplicate-free and equal the input ids as a set, and
every returned bucket name belongs to the supplied name set; and every
rejection reports a reason whose rule indeed fails on the input. -/
theorem validateBatch_accepts_iff (bucketNamesOnly : List String) (batch : List Email)
    (raw : RawOutput) :
    (validateBatch bucketNamesOnly batch raw = ValidationOutcome.ok
      ↔ ∃ items, raw = RawOutput.arr items
          ∧ items.length = batch.length
          ∧ (∀ o ∈ items, ∃ t b, o = some ⟨JsVal.str t, JsVal.str b⟩)
          ∧ (stringThreadIds items).Nodup
          ∧ (∀ t, t ∈ stringThreadIds items ↔ t ∈ batch.map Email.threadId)
          ∧ (∀ o ∈ items, ∀ t b, o = some ⟨JsVal.str t, JsVal.str b⟩ →
              b ∈ bucketNamesOnly))
    ∧ (∀ r, validateBatch bucketNamesOnly batch raw = ValidationOutcome.err r →
        reasonHolds bucketNamesOnly batch raw r) :=
  validateBatch_spec bucketNamesOnly batch raw

/-- Witness for C2 at a concrete accepted batch. -/
theorem validateBatch_accepts_iff_witness :
    validateBatch ["A"] [⟨"t1", none, none, none⟩]
        (RawOutput.arr [some ⟨JsVal.str "t1", JsVal.str "A"⟩])
      = ValidationOutcome.ok := by
  refine (validateBatch_accepts_iff ["A"] [⟨"t1", none, none, none⟩]
      (RawOutput.arr [some ⟨JsVal.str "t1", JsVal.str "A"⟩])).1.mpr
    ⟨[some ⟨JsVal.str "t1", JsVal.str "A"⟩], rfl, rfl, ?_, by decide, ?_, ?_⟩
  · intro o ho
    rw [List.mem_singleton] at ho
    exact ⟨"t1", "A", ho⟩
  · intro t
    exact Iff.rfl
  · intro o ho t b hob
    rw [List.mem_singleton] at ho
    rw [ho] at hob
    have h1 := Option.some.inj hob
    have h2 : JsVal.str "A" = JsVal.str b := congrArg RawItem.bucketName h1
    have h3 : b = "A" := (JsVal.str.inj h2).symm
    rw [h3]
    exact List.mem_singleton.mpr rfl

/-! ## JS object maps -/

/-- The keys after an insert: unchanged when the key exists, appended
otherwise. -/
theorem objKeys_objInsert (m : List (String × String)) (k v : String) :
    objKeys (objInsert m k v)
      = if m.any (fun p => p.1 = k) then objKeys m else objKeys m ++ [k] := by
  unfold objInsert objKeys
  by_cases h : m.any (fun p => p.1 = k)
  · rw [if_pos h, if_pos h, List.map_map]
    refine List.map_congr_left ?_
    intro p _
    by_cases hp : p.1 = k
    · simp [hp]
    · simp [hp]
  · rw [if_neg h, if_neg h]
    simp

theorem mem_objKeys_objInsert_self (m : List (String × String)) (k v : String) :
    k ∈ objKeys (objInsert m k v) := by
  rw [objKeys_objInsert]
  by_cases h : m.any (fun p => p.1 = k)
  · rw [if_pos h]
    obtain ⟨p, hp, hpk⟩ := List.any_eq_true.mp h
    rw [← (by simpa using hpk : p.1 = k)]
    exact List.mem_map_of_mem Prod.fst hp
  · rw [if_neg h]
    simp

theorem mem_objKeys_objInsert_of_mem (m : List (String × String)) (k v a : String)
    (ha : a ∈ objKeys m) : a ∈ objKeys (objInsert m k v) := by
  rw [objKeys_objInsert]
  by_cases h : m.any (fun p => p.1 = k)
  · rw [if_pos h]; exact ha
  · rw [if_neg h]; exact List.mem_append_left _ ha

theorem objKeys_nodup_objInsert (m : List (String × String)) (k v : String)
    (h : (objKeys m).Nodup) : (objKeys (objInsert m k v)).Nodup := by
  rw [objKeys_objInsert]
  by_cases hany : m.any (fun p => p.1 = k)
  · rw [if_pos hany]; exact h
  · rw [if_neg hany]
    refine List.Nodup.append h (List.nodup_singleton k) ?_
    intro a ha hk
    rw [List.mem_singleton] at hk
    subst hk
    obtain ⟨p, hp, hpk⟩ := List.mem_map.mp ha
    exact hany (List.any_eq_true.mpr ⟨p, hp, by simp [hpk]⟩)

/-- Every entry of the map after an insert is an old entry or the inserted
pair. -/
theorem mem_objInsert (m : List (String × String)) (k v : String) (p : String × String)
    (hp : p ∈ objInsert m k v) : p ∈ m ∨ p = (k, v) := by
  unfold objInsert at hp
  by_cases h : m.any (fun q => q.1 = k)
  · rw [if_pos h] at hp
    obtain ⟨q, hq, hqp⟩ := List.mem_map.mp hp
    by_cases hqk : q.1 = k
    · rw [if_pos hqk] at hqp
      exact Or.inr hqp.symm
    · rw [if_neg hqk] at hqp
      exact Or.inl (hqp ▸ hq)
  · rw [if_neg h] at hp
    rcases List.mem_append.mp hp with hp | hp
    · exact Or.inl hp
    · exact Or.inr (List.mem_singleton.mp hp)

/-- A present key has a looked-up value, and the pair is an entry of the map. -/
theorem objLookup_of_mem_objKeys (m : List (String × String)) (a : String)
    (ha : a ∈ objKeys m) : ∃ v, objLookup m a = some v ∧ (a, v) ∈ m := by
  obtain ⟨p, hp, hpa⟩ := List.mem_map.mp ha
  have hsome : (m.find? (fun q => q.1 = a)).isSome :=
    List.find?_isSome.mpr ⟨p, hp, by simp [hpa]⟩
  obtain ⟨q, hq⟩ := Option.isSome_iff_exists.mp hsome
  have hqa : q.1 = a := by
    have := List.find?_some hq
    simpa using this
  refine ⟨q.2, ?_, ?_⟩
  · unfold objLookup
    rw [hq]
    rfl
  · have := List.mem_of_find?_eq_some hq
    rw [← hqa]
    exact this

/-! ## The insertion loop of an accepted batch -/

/-- A successful name-to-id lookup returns the id of one of the buckets. -/
theorem bucketNameToIdMapLookup_provenance (buckets : List Bucket) (b bid : String)
    (h : bucketNameToIdMapLookup buckets b = some bid) :
    ∃ bk ∈ buckets, bk.name = b ∧ bk.id = bid := by
  unfold bucketNameToIdMapLookup at h
  cases hf : buckets.reverse.find? (fun bk => bk.name = b) with
  | none => rw [hf] at h; exact absurd h (by simp)
  | some bk =>
    rw [hf] at h
    refine ⟨bk, ?_, ?_, ?_⟩
    · exact List.mem_reverse.mp (List.mem_of_find?_eq_some hf)
    · simpa using List.find?_some hf
    · simpa using h

/-- A bucket name that occurs in the supplied list has a successful lookup. -/
theorem bucketNameToIdMapLookup_total (buckets : List Bucket) (b : String)
    (h : b ∈ buckets.map Bucket.name) :
    ∃ bid, bucketNameToIdMapLookup buckets b = some bid := by
  obtain ⟨bk, hbk, hname⟩ := List.mem_map.mp h
  have hsome : (buckets.reverse.find? (fun q => q.name = b)).isSome :=
    List.find?_isSome.mpr ⟨bk, List.mem_reverse.mpr hbk, by simp [hname]⟩
  obtain ⟨q, hq⟩ := Option.isSome_iff_exists.mp hsome
  exact ⟨q.id, by unfold bucketNameToIdMapLookup; rw [hq]; rfl⟩

/-- Keys present before the insertion loop remain present after it. -/
theorem keys_foldl_insertStep_preserved (buckets : List Bucket) :
    ∀ (items : List (Option RawItem)) (m : List (String × String)) (a : String),
      a ∈ objKeys m → a ∈ objKeys (items.foldl (insertStep buckets) m) := by
  intro items
  induction items with
  | nil => intro m a ha; exact ha
  | cons o os ih =>
    intro m a ha
    rw [List.foldl_cons]
    refine ih _ a ?_
    cases o with
    | none => exact ha
    | some it =>
      obtain ⟨ti, bn⟩ := it
      cases ti with
      | nonstr => exact ha
      | str tid =>
        cases bn with
        | nonstr => exact ha
        | str bname =>
          simp only [insertStep]
          cases hlk : bucketNameToIdMapLookup buckets bname with
          | none => exact ha
          | some bid =>
            show a ∈ objKeys (if bid ≠ "" then objInsert m tid bid else m)
            by_cases hb : bid = ""
            · rw [if_neg (not_not_intro hb)]
              exact ha
            · rw [if_pos hb]
              exact mem_objKeys_objInsert_of_mem _ _ _ _ ha

/-- An element with a string id and a string name whose lookup succeeds with a
truthy id ends up as a key of the insertion loop's result. -/
theorem keys_foldl_insertStep_inserted (buckets : List Bucket) :
    ∀ (items : List (Option RawItem)) (m : List (String × String)) (t b bid : String),
      some ⟨JsVal.str t, JsVal.str b⟩ ∈ items →
      bucketNameToIdMapLookup buckets b = some bid → bid ≠ "" →
      t ∈ objKeys (items.foldl (insertStep buckets) m) := by
  intro items
  induction items with
  | nil =>
    intro m t b bid hmem
    exact absurd hmem (by simp)
  | cons o os ih =>
    intro m t b bid hmem hlk hbid
    rw [List.foldl_cons]
    rcases List.mem_cons.mp hmem with heq | hmem'
    · rw [← heq]
      simp only [insertStep, hlk]
      rw [if_pos hbid]
      exact keys_foldl_insertStep_preserved buckets os _ t
        (mem_objKeys_objInsert_self _ _ _)
    · exact ih _ t b bid hmem' hlk hbid

/-- Every value in the insertion loop's result that was not already present is
the id of one of the supplied buckets. -/
theorem values_foldl_insertStep (buckets : List Bucket) :
    ∀ (items : List (Option RawItem)) (m : List (String × String))
      (p : String × String),
      p ∈ items.foldl (insertStep buckets) m →
      p ∈ m ∨ p.2 ∈ buckets.map Bucket.id := by
  intro items
  induction items with
  | nil => intro m p hp; exact Or.inl hp
  | cons o os ih =>
    intro m p hp
    rw [List.foldl_cons] at hp
    rcases ih _ p hp with hp' | hval
    · cases o with
      | none => exact Or.inl hp'
      | some it =>
        obtain ⟨ti, bn⟩ := it
        cases ti with
        | nonstr => exact Or.inl hp'
        | str tid =>
          cases bn with
          | nonstr => exact Or.inl hp'
          | str bname =>
            simp only [insertStep] at hp'
            cases hlk : bucketNameToIdMapLookup buckets bname with
            | none =>
              rw [hlk] at hp'
              exact Or.inl hp'
            | some bid =>
              rw [hlk] at hp'
              have hp2 : p ∈ (if bid ≠ "" then objInsert m tid bid else m) := hp'
              by_cases hb : bid = ""
              · rw [if_neg (not_not_intro hb)] at hp2
                exact Or.inl hp2
              · rw [if_pos hb] at hp2
                rcases mem_objInsert _ _ _ _ hp2 with hp'' | hp''
                · exact Or.inl hp''
                · obtain ⟨bk, hbk, -, hbid'⟩ :=
                    bucketNameToIdMapLookup_provenance buckets bname bid hlk
                  refine Or.inr ?_
                  rw [hp'']
                  rw [← hbid']
                  exact List.mem_map_of_mem Bucket.id hbk
    · exact Or.inr hval

/-- The keys of the insertion loop's result stay duplicate-free. -/
theorem keys_foldl_insertStep_nodup (buckets : List Bucket) :
    ∀ (items : List (Option RawItem)) (m : List (String × String)),
      (objKeys m).Nodup → (objKeys (items.foldl (insertStep buckets) m)).Nodup := by
  intro items
  induction items with
  | nil => intro m hm; exact hm
  | cons o os ih =>
    intro m hm
    rw [List.foldl_cons]
    refine ih _ ?_
    cases o with
    | none => exact hm
    | some it =>
      obtain ⟨ti, bn⟩ := it
      cases ti with
      | nonstr => exact hm
      | str tid =>
        cases bn with
        | nonstr => exact hm
        | str bname =>
          simp only [insertStep]
          cases hlk : bucketNameToIdMapLookup buckets bname with
          | none => exact hm
          | some bid =>
            show (objKeys (if bid ≠ "" then objInsert m tid bid else m)).Nodup
            by_cases hb : bid = ""
            · rw [if_neg (not_not_intro hb)]
              exact hm
            · rw [if_pos hb]
              exact objKeys_nodup_objInsert _ _ _ hm

/-! ## Single-batch processing -/

theorem processSingleBatch_error_eq (buckets : List Bucket) (batch : List Email)
    (e : GenError) (hne : batch ≠ []) :
    processSingleBatch buckets batch (Except.error e)
      = ([], [{ batchThreadIds := batch.map Email.threadId,
                error := genErrorMessage e }]) := by
  unfold processSingleBatch
  rw [if_neg (by simp [hne])]

theorem processSingleBatch_invalid_eq (buckets : List Bucket) (batch : List Email)
    (raw : RawOutput) (r : ValReason) (hne : batch ≠ [])
    (hval : validateBatch (buckets.map Bucket.name) batch raw
      = ValidationOutcome.err r) :
    processSingleBatch buckets batch (Except.ok raw)
      = ([], [{ batchThreadIds := batch.map Email.threadId,
                error := "Validation Failed: " ++ validationMessage r }]) := by
  unfold processSingleBatch
  rw [if_neg (by simp [hne])]
  simp only [hval]

theorem processSingleBatch_valid_eq (buckets : List Bucket) (batch : List Email)
    (items : List (Option RawItem)) (hne : batch ≠ [])
    (hval : validateBatch (buckets.map Bucket.name) batch (RawOutput.arr items)
      = ValidationOutcome.ok) :
    processSingleBatch buckets batch (Except.ok (RawOutput.arr items))
      = (insertValidatedPairs buckets items, []) := by
  unfold processSingleBatch
  rw [if_neg (by simp [hne])]
  simp only [hval]

/-- Batch atomicity, provided every supplied bucket id is non-empty: a batch
either succeeds as a whole — no error, every input id a key of the batch map,
mapped to a supplied bucket id — or fails as a whole: an empty map and exactly
one error carrying the batch's full id list. -/
theorem processSingleBatch_atomic_cases (buckets : List Bucket) (batch : List Email)
    (response : Except GenError RawOutput)
    (hne : batch ≠ []) (hids : ∀ b ∈ buckets, b.id ≠ "") :
    ((processSingleBatch buckets batch response).2 = []
      ∧ ∀ tid ∈ batch.map Email.threadId,
          ∃ bid, objLookup (processSingleBatch buckets batch response).1 tid = some bid
            ∧ bid ∈ buckets.map Bucket.id)
    ∨ ((processSingleBatch buckets batch response).1 = []
      ∧ ∃ msg, (processSingleBatch buckets batch response).2
          = [{ batchThreadIds := batch.map Email.threadId, error := msg }]) := by
  cases response with
  | error e =>
    right
    rw [processSingleBatch_error_eq buckets batch e hne]
    exact ⟨rfl, genErrorMessage e, rfl⟩
  | ok raw =>
    cases hval : validateBatch (buckets.map Bucket.name) batch raw with
    | err r =>
      right
      rw [processSingleBatch_invalid_eq buckets batch raw r hne hval]
      exact ⟨rfl, "Validation Failed: " ++ validationMessage r, rfl⟩
    | ok =>
      cases raw with
      | notArr t => exact absurd hval (by simp [validateBatch])
      | arr items =>
        left
        rw [processSingleBatch_valid_eq buckets batch items hne hval]
        refine ⟨rfl, ?_⟩
        intro tid htid
        obtain ⟨items', heq, hlen, hprop, hnodup, hmemiff, hnames⟩ :=
          (validateBatch_spec (buckets.map Bucket.name) batch
            (RawOutput.arr items)).1.mp hval
        have heq' : items' = items := by
          injection heq with h
          exact h.symm
        rw [heq'] at hprop hmemiff hnames
        have htid' : tid ∈ stringThreadIds items := (hmemiff tid).mpr htid
        obtain ⟨o, ho, hext⟩ := List.mem_filterMap.mp htid'
        obtain ⟨t', b', hob⟩ := hprop o ho
        have ht' : t' = tid := by
          rw [hob] at hext
          simpa using hext
        obtain ⟨bid, hlk⟩ :=
          bucketNameToIdMapLookup_total buckets b' (hnames o ho t' b' hob)
        obtain ⟨bk, hbk, -, hbid'⟩ :=
          bucketNameToIdMapLookup_provenance buckets b' bid hlk
        have hbidne : bid ≠ "" := by
          rw [← hbid']
          exact hids bk hbk
        have hkey : tid ∈ objKeys (insertValidatedPairs buckets items) := by
          unfold insertValidatedPairs
          refine keys_foldl_insertStep_inserted buckets items [] tid b' bid ?_ hlk hbidne
          rw [← ht', ← hob]
          exact ho
        obtain ⟨v, hv, hpair⟩ := objLookup_of_mem_objKeys _ tid hkey
        have hval' : v ∈ buckets.map Bucket.id := by
          rcases values_foldl_insertStep buckets items [] (tid, v) hpair with h0 | h0
          · exact absurd h0 (by simp)
          · exact h0
        exact ⟨v, hv, hval'⟩

/-- C8 counterexample: a bucket whose id is the empty string.  The batch passes
validation, the name-to-id lookup succeeds but returns the falsy empty string,
so `if (bucketId)` silently skips the pair: the accepted batch's pair is never
entered into the classifications map. -/
theorem translation_skips_pair_counterexample :
    validateBatch (List.map Bucket.name [⟨"", "A", none⟩])
        [⟨"t1", none, none, none⟩]
        (RawOutput.arr [some ⟨JsVal.str "t1", JsVal.str "A"⟩])
      = ValidationOutcome.ok
    ∧ (processSingleBatch [⟨"", "A", none⟩] [⟨"t1", none, none, none⟩]
        (Except.ok (RawOutput.arr [some ⟨JsVal.str "t1", JsVal.str "A"⟩]))).1
      = []
    ∧ ¬ "t1" ∈ objKeys (processSingleBatch [⟨"", "A", none⟩]
        [⟨"t1", none, none, none⟩]
        (Except.ok (RawOutput.arr [some ⟨JsVal.str "t1", JsVal.str "A"⟩]))).1 := by
  decide

/-- C8 amended: provided every supplied bucket id is non-empty, translating an
accepted batch never fails — for every element of the accepted raw array the
name-to-id lookup succeeds with a truthy id (the skip branch is unreachable)
and the element's thread id is entered as a key of the batch's classification
map. -/
theorem accepted_batch_translation_never_fails (buckets : List Bucket)
    (batch : List Email) (items : List (Option RawItem))
    (hids : ∀ b ∈ buckets, b.id ≠ "")
    (hok : validateBatch (buckets.map Bucket.name) batch (RawOutput.arr items)
      = ValidationOutcome.ok) :
    ∀ o ∈ items, ∃ t b bid, o = some ⟨JsVal.str t, JsVal.str b⟩
      ∧ bucketNameToIdMapLookup buckets b = some bid
      ∧ bid ≠ ""
      ∧ t ∈ objKeys (insertValidatedPairs buckets items) := by
  intro o ho
  obtain ⟨items', heq, hlen, hprop, hnodup, hmemiff, hnames⟩ :=
    (validateBatch_spec (buckets.map Bucket.name) batch (RawOutput.arr items)).1.mp hok
  have heq' : items' = items := by
    injection heq with h
    exact h.symm
  rw [heq'] at hprop hnames
  obtain ⟨t, b, hob⟩ := hprop o ho
  obtain ⟨bid, hlk⟩ := bucketNameToIdMapLookup_total buckets b (hnames o ho t b hob)
  obtain ⟨bk, hbk, -, hbid'⟩ := bucketNameToIdMapLookup_provenance buckets b bid hlk
  have hbidne : bid ≠ "" := by
    rw [← hbid']
    exact hids bk hbk
  refine ⟨t, b, bid, hob, hlk, hbidne, ?_⟩
  unfold insertValidatedPairs
  refine keys_foldl_insertStep_inserted buckets items [] t b bid ?_ hlk hbidne
  rw [← hob]
  exact ho

/-- Witness for C8's amended theorem: with a non-empty bucket id the accepted
pair is entered. -/
theorem accepted_batch_translation_never_fails_witness :
    ∃ t b bid,
      (some ⟨JsVal.str "t1", JsVal.str "A"⟩ : Option RawItem)
          = some ⟨JsVal.str t, JsVal.str b⟩
      ∧ bucketNameToIdMapLookup [⟨"b1", "A", none⟩] b = some bid
      ∧ bid ≠ ""
      ∧ t ∈ objKeys (insertValidatedPairs [⟨"b1", "A", none⟩]
          [some ⟨JsVal.str "t1", JsVal.str "A"⟩]) :=
  accepted_batch_translation_never_fails [⟨"b1", "A", none⟩]
    [⟨"t1", none, none, none⟩] [some ⟨JsVal.str "t1", JsVal.str "A"⟩]
    (by decide) (by decide)
    (some ⟨JsVal.str "t1", JsVal.str "A"⟩) (by decide)

/-! ## Run aggregation -/

theorem keys_objAssign_left (t s : List (String × String)) (a : String)
    (ha : a ∈ objKeys t) : a ∈ objKeys (objAssign t s) := by
  induction s generalizing t with
  | nil => exact ha
  | cons q qs ih =>
    rw [objAssign, List.foldl_cons]
    exact ih _ (mem_objKeys_objInsert_of_mem _ _ _ _ ha)

theorem keys_objAssign_right (t s : List (String × String)) (a : String)
    (ha : a ∈ objKeys s) : a ∈ objKeys (objAssign t s) := by
  induction s generalizing t with
  | nil => exact absurd ha (by simp [objKeys])
  | cons q qs ih =>
    rw [objAssign, List.foldl_cons]
    have ha' : a ∈ q.1 :: objKeys qs := ha
    rcases List.mem_cons.mp ha' with heq | hmem
    · refine keys_objAssign_left _ _ _ ?_
      rw [heq]
      exact mem_objKeys_objInsert_self _ _ _
    · exact ih _ hmem

theorem keys_objAssign_nodup (t s : List (String × String))
    (h : (objKeys t).Nodup) : (objKeys (objAssign t s)).Nodup := by
  induction s generalizing t with
  | nil => exact h
  | cons q qs ih =>
    rw [objAssign, List.foldl_cons]
    exact ih _ (objKeys_nodup_objInsert _ _ _ h)

theorem mem_objAssign (t s : List (String × String)) (p : String × String)
    (hp : p ∈ objAssign t s) : p ∈ t ∨ p ∈ s := by
  induction s generalizing t with
  | nil => exact Or.inl hp
  | cons q qs ih =>
    rw [objAssign, List.foldl_cons] at hp
    rcases ih _ hp with hp' | hp'
    · rcases mem_objInsert _ _ _ _ hp' with hp'' | hp''
      · exact Or.inl hp''
      · right
        rw [hp'']
        exact List.mem_cons_self _ _
    · exact Or.inr (List.mem_cons_of_mem _ hp')

theorem keys_foldl_objAssign_acc (maps : List (List (String × String)))
    (acc : List (String × String)) (a : String) (ha : a ∈ objKeys acc) :
    a ∈ objKeys (maps.foldl (fun m r => objAssign m r) acc) := by
  induction maps generalizing acc with
  | nil => exact ha
  | cons q qs ih =>
    rw [List.foldl_cons]
    exact ih _ (keys_objAssign_left _ _ _ ha)

theorem keys_foldl_objAssign_elem (maps : List (List (String × String)))
    (acc m : List (String × String)) (a : String)
    (hm : m ∈ maps) (ha : a ∈ objKeys m) :
    a ∈ objKeys (maps.foldl (fun m r => objAssign m r) acc) := by
  induction maps generalizing acc with
  | nil => exact absurd hm (by simp)
  | cons q qs ih =>
    rw [List.foldl_cons]
    rcases List.mem_cons.mp hm with rfl | hm'
    · exact keys_foldl_objAssign_acc _ _ _ (keys_objAssign_right _ _ _ ha)
    · exact ih _ hm'

theorem keys_foldl_objAssign_nodup (maps : List (List (String × String)))
    (acc : List (String × String)) (h : (objKeys acc).Nodup) :
    (objKeys (maps.foldl (fun m r => objAssign m r) acc)).Nodup := by
  induction maps generalizing acc with
  | nil => exact h
  | cons q qs ih =>
    rw [List.foldl_cons]
    exact ih _ (keys_objAssign_nodup _ _ h)

theorem mem_foldl_objAssign (maps : List (List (String × String)))
    (acc : List (String × String)) (p : String × String)
    (hp : p ∈ maps.foldl (fun m r => objAssign m r) acc) :
    p ∈ acc ∨ ∃ m ∈ maps, p ∈ m := by
  induction maps generalizing acc with
  | nil => exact Or.inl hp
  | cons q qs ih =>
    rw [List.foldl_cons] at hp
    rcases ih _ hp with hp' | ⟨m, hm, hpm⟩
    · rcases mem_objAssign _ _ _ hp' with hp'' | hp''
      · exact Or.inl hp''
      · exact Or.inr ⟨q, List.mem_cons_self _ _, hp''⟩
    · exact Or.inr ⟨m, List.mem_cons_of_mem _ hm, hpm⟩

/-- The aggregation loop of the route's step 5, in closed form: the
classification maps merged left to right and the error lists concatenated. -/
theorem runResult_foldl_merge :
    ∀ (results : List (List (String × String) × List BatchError)) (acc : RunResult),
      results.foldl (fun acc r =>
          { classifications := objAssign acc.classifications r.1,
            errors := acc.errors ++ r.2 }) acc
        = { classifications :=
              (results.map Prod.fst).foldl (fun m r => objAssign m r) acc.classifications,
            errors := acc.errors ++ (results.map Prod.snd).flatten } := by
  intro results
  induction results with
  | nil => intro acc; simp
  | cons r rs ih =>
    intro acc
    rw [List.foldl_cons, ih]
    simp

/-- `classifyRun` in closed form. -/
theorem classifyRun_eq (emails : List Email) (buckets : List Bucket)
    (responses : Nat → Except GenError RawOutput) :
    classifyRun emails buckets responses
      = { classifications :=
            (((chunkArray emails BATCH_SIZE).enum.map
              (fun p => (processSingleBatch buckets p.2 (responses p.1)).1)).foldl
              (fun m r => objAssign m r) [])
          errors :=
            ((chunkArray emails BATCH_SIZE).enum.map
              (fun p => (processSingleBatch buckets p.2 (responses p.1)).2)).flatten } := by
  unfold classifyRun
  rw [runResult_foldl_merge]
  simp only [List.map_map]
  rfl

/-- A successful property read implies the key is present. -/
theorem objKeys_of_objLookup (m : List (String × String)) (k v : String)
    (h : objLookup m k = some v) : k ∈ objKeys m := by
  unfold objLookup at h
  cases hf : m.find? (fun p => p.1 = k) with
  | none => rw [hf] at h; exact absurd h (by simp)
  | some q =>
    have hq : q.1 = k := by
      have := List.find?_some hf
      simpa using this
    rw [← hq]
    exact List.mem_map_of_mem Prod.fst (List.mem_of_find?_eq_some hf)

/-- C1 counterexample: a run with one batch of two emails and a bucket whose
id is the empty string.  The batch passes validation, one pair is stored and
the other silently skipped (`if (bucketId)` on the falsy empty id), so the
batch neither fully succeeds nor yields a `BatchError`. -/
theorem run_batch_atomicity_counterexample :
    (classifyRun [⟨"t1", none, none, none⟩, ⟨"t2", none, none, none⟩]
        [⟨"", "A", none⟩, ⟨"b2", "B", none⟩]
        (fun _ => Except.ok (RawOutput.arr
          [some ⟨JsVal.str "t1", JsVal.str "A"⟩,
           some ⟨JsVal.str "t2", JsVal.str "B"⟩]))).classifications
      = [("t2", "b2")]
    ∧ (classifyRun [⟨"t1", none, none, none⟩, ⟨"t2", none, none, none⟩]
        [⟨"", "A", none⟩, ⟨"b2", "B", none⟩]
        (fun _ => Except.ok (RawOutput.arr
          [some ⟨JsVal.str "t1", JsVal.str "A"⟩,
           some ⟨JsVal.str "t2", JsVal.str "B"⟩]))).errors
      = []
    ∧ ¬ "t1" ∈ objKeys (classifyRun [⟨"t1", none, none, none⟩, ⟨"t2", none, none, none⟩]
        [⟨"", "A", none⟩, ⟨"b2", "B", none⟩]
        (fun _ => Except.ok (RawOutput.arr
          [some ⟨JsVal.str "t1", JsVal.str "A"⟩,
           some ⟨JsVal.str "t2", JsVal.str "B"⟩]))).classifications := by
  have hch : chunkArray [(⟨"t1", none, none, none⟩ : Email), ⟨"t2", none, none, none⟩]
      BATCH_SIZE = [[⟨"t1", none, none, none⟩, ⟨"t2", none, none, none⟩]] :=
    chunkArray_of_le BATCH_SIZE (by decide) _ (by decide) (by decide)
  refine ⟨?_, ?_, ?_⟩
  · rw [classifyRun_eq, hch]
    decide
  · rw [classifyRun_eq, hch]
    decide
  · rw [classifyRun_eq, hch]
    decide

/-- C1 amended: provided every supplied bucket id is non-empty, every batch of
a run is atomic — either no error and every batch id is a key of the batch's
map, mapped to a supplied bucket id, or an empty map and exactly one
`BatchError` carrying the batch's full id list (a thrown model call included) —
and the run's result is the independent merge of the per-batch results, so a
failed batch never aborts its siblings. -/
theorem classifyRun_batch_atomicity (emails : List Email) (buckets : List Bucket)
    (responses : Nat → Except GenError RawOutput)
    (hids : ∀ b ∈ buckets, b.id ≠ "") :
    (∀ i batch, (chunkArray emails BATCH_SIZE)[i]? = some batch →
      (((processSingleBatch buckets batch (responses i)).2 = []
        ∧ ∀ tid ∈ batch.map Email.threadId,
            ∃ bid, objLookup (processSingleBatch buckets batch (responses i)).1 tid
                = some bid
              ∧ bid ∈ buckets.map Bucket.id)
      ∨ ((processSingleBatch buckets batch (responses i)).1 = []
        ∧ ∃ msg, (processSingleBatch buckets batch (responses i)).2
            = [{ batchThreadIds := batch.map Email.threadId, error := msg }])))
    ∧ (classifyRun emails buckets responses).errors
        = ((chunkArray emails BATCH_SIZE).enum.map
            (fun p => (processSingleBatch buckets p.2 (responses p.1)).2)).flatten
    ∧ (classifyRun emails buckets responses).classifications
        = ((chunkArray emails BATCH_SIZE).enum.map
            (fun p => (processSingleBatch buckets p.2 (responses p.1)).1)).foldl
            (fun m r => objAssign m r) [] := by
  refine ⟨?_, ?_, ?_⟩
  · intro i batch hget
    have hmem : batch ∈ chunkArray emails BATCH_SIZE := by
      have := List.getElem?_eq_some.mp hget
      obtain ⟨hlt, heq⟩ := this
      rw [← heq]
      exact List.getElem_mem hlt
    have hne : batch ≠ [] :=
      (chunkArray_mem_length BATCH_SIZE (by decide) emails batch hmem).1
    exact processSingleBatch_atomic_cases buckets batch (responses i) hne hids
  · rw [classifyRun_eq]
  · rw [classifyRun_eq]

/-- Witness for C1's amended theorem at a concrete one-batch run. -/
theorem classifyRun_batch_atomicity_witness :
    (classifyRun [⟨"t1", none, none, none⟩] [⟨"b1", "A", none⟩]
        (fun _ => Except.ok (RawOutput.arr
          [some ⟨JsVal.str "t1", JsVal.str "A"⟩]))).errors
      = ((chunkArray [(⟨"t1", none, none, none⟩ : Email)] BATCH_SIZE).enum.map
          (fun p => (processSingleBatch [⟨"b1", "A", none⟩] p.2
            ((fun _ => Except.ok (RawOutput.arr
              [some ⟨JsVal.str "t1", JsVal.str "A"⟩])) p.1)).2)).flatten :=
  (classifyRun_batch_atomicity [⟨"t1", none, none, none⟩] [⟨"b1", "A", none⟩]
    (fun _ => Except.ok (RawOutput.arr [some ⟨JsVal.str "t1", JsVal.str "A"⟩]))
    (by decide)).2.1

/-- Every entry stored by a single batch carries one of the supplied bucket
ids as its value. -/
theorem processSingleBatch_values (buckets : List Bucket) (batch : List Email)
    (response : Except GenError RawOutput) :
    ∀ p ∈ (processSingleBatch buckets batch response).1,
      p.2 ∈ buckets.map Bucket.id := by
  intro p hp
  unfold processSingleBatch at hp
  by_cases hb : batch.isEmpty
  · rw [if_pos hb] at hp
    exact absurd hp (by simp)
  · rw [if_neg hb] at hp
    cases response with
    | error e => exact absurd hp (by simp)
    | ok raw =>
      cases hval : validateBatch (buckets.map Bucket.name) batch raw with
      | err r =>
        simp only [hval] at hp
        exact absurd hp (by simp)
      | ok =>
        simp only [hval] at hp
        cases raw with
        | notArr t => exact absurd hp (by simp)
        | arr items =>
          have hp' : p ∈ insertValidatedPairs buckets items := hp
          rcases values_foldl_insertStep buckets items [] p hp' with h0 | h0
          · exact absurd h0 (by simp)
          · exact h0

/-- C3 counterexample: one email, one bucket whose id is the empty string, an
accepted model response.  The pair is silently skipped, so the lone input
thread id ends the run neither classified nor listed in any error — and
`|classifications| + |union of error ids| = 0 < 1 = |input emails|`. -/
theorem run_accounting_counterexample :
    (classifyRun [⟨"t1", none, none, none⟩] [⟨"", "A", none⟩]
        (fun _ => Except.ok (RawOutput.arr
          [some ⟨JsVal.str "t1", JsVal.str "A"⟩]))).classifications = []
    ∧ (classifyRun [⟨"t1", none, none, none⟩] [⟨"", "A", none⟩]
        (fun _ => Except.ok (RawOutput.arr
          [some ⟨JsVal.str "t1", JsVal.str "A"⟩]))).errors = [] := by
  have hch : chunkArray [(⟨"t1", none, none, none⟩ : Email)] BATCH_SIZE
      = [[⟨"t1", none, none, none⟩]] :=
    chunkArray_of_le BATCH_SIZE (by decide) _ (by decide) (by decide)
  refine ⟨?_, ?_⟩
  · rw [classifyRun_eq, hch]
    decide
  · rw [classifyRun_eq, hch]
    decide

/-- C3 amended: provided the input thread ids are pairwise distinct and every
supplied bucket id is non-empty, every input thread id ends the run either as
a key of the returned classifications map or inside some error entry's id
list, and `|classifications| + |union of error-listed ids| ≥ |input emails|`. -/
theorem classifyRun_accounts_for_all_inputs (emails : List Email)
    (buckets : List Bucket) (responses : Nat → Except GenError RawOutput)
    (hnodup : (emails.map Email.threadId).Nodup)
    (hids : ∀ b ∈ buckets, b.id ≠ "") :
    (∀ tid ∈ emails.map Email.threadId,
        tid ∈ objKeys (classifyRun emails buckets responses).classifications
        ∨ ∃ e ∈ (classifyRun emails buckets responses).errors,
            tid ∈ e.batchThreadIds)
    ∧ emails.length
        ≤ (classifyRun emails buckets responses).classifications.length
          + (((classifyRun emails buckets responses).errors.map
              BatchError.batchThreadIds).flatten).toFinset.card := by
  have hcover : ∀ tid ∈ emails.map Email.threadId,
      tid ∈ objKeys (classifyRun emails buckets responses).classifications
      ∨ ∃ e ∈ (classifyRun emails buckets responses).errors,
          tid ∈ e.batchThreadIds := by
    intro tid htid
    obtain ⟨e, he, hetid⟩ := List.mem_map.mp htid
    have he' : e ∈ (chunkArray emails BATCH_SIZE).flatten := by
      rw [chunkArray_flatten BATCH_SIZE (by decide)]
      exact he
    obtain ⟨batch, hbatch, hebatch⟩ := List.mem_flatten.mp he'
    obtain ⟨⟨i, hlt⟩, hget⟩ := List.mem_iff_get.mp hbatch
    have henum : (i, batch) ∈ (chunkArray emails BATCH_SIZE).enum := by
      refine List.mk_mem_enum_iff_getElem?.mpr ?_
      rw [List.getElem?_eq_getElem hlt]
      rw [← hget]
      rfl
    have hne : batch ≠ [] :=
      (chunkArray_mem_length BATCH_SIZE (by decide) emails batch hbatch).1
    have htid_b : tid ∈ batch.map Email.threadId := by
      rw [← hetid]
      exact List.mem_map_of_mem Email.threadId hebatch
    rcases processSingleBatch_atomic_cases buckets batch (responses i) hne hids with
      ⟨herr, hkeys⟩ | ⟨hcls, msg, herr⟩
    · left
      obtain ⟨bid, hlk, -⟩ := hkeys tid htid_b
      have hkey : tid ∈ objKeys (processSingleBatch buckets batch (responses i)).1 :=
        objKeys_of_objLookup _ _ _ hlk
      rw [classifyRun_eq]
      refine keys_foldl_objAssign_elem _ _ _ _ ?_ hkey
      exact List.mem_map_of_mem
        (fun p => (processSingleBatch buckets p.2 (responses p.1)).1) henum
    · right
      rw [classifyRun_eq]
      refine ⟨{ batchThreadIds := batch.map Email.threadId, error := msg }, ?_, htid_b⟩
      refine List.mem_flatten.mpr
        ⟨(processSingleBatch buckets batch (responses i)).2, ?_, ?_⟩
      · exact List.mem_map_of_mem
          (fun p => (processSingleBatch buckets p.2 (responses p.1)).2) henum
      · rw [herr]
        exact List.mem_singleton.mpr rfl
  refine ⟨hcover, ?_⟩
  have hkeysnodup :
      (objKeys (classifyRun emails buckets responses).classifications).Nodup := by
    rw [classifyRun_eq]
    exact keys_foldl_objAssign_nodup _ _ (by simp [objKeys])
  have hsub : (emails.map Email.threadId).toFinset
      ⊆ (objKeys (classifyRun emails buckets responses).classifications).toFinset
        ∪ (((classifyRun emails buckets responses).errors.map
            BatchError.batchThreadIds).flatten).toFinset := by
    intro tid htid
    rw [List.mem_toFinset] at htid
    rcases hcover tid htid with hk | ⟨err, herr, htid'⟩
    · exact Finset.mem_union_left _ (List.mem_toFinset.mpr hk)
    · refine Finset.mem_union_right _ (List.mem_toFinset.mpr ?_)
      refine List.mem_flatten.mpr ⟨err.batchThreadIds, ?_, htid'⟩
      exact List.mem_map_of_mem BatchError.batchThreadIds herr
  calc emails.length
      = (emails.map Email.threadId).toFinset.card := by
        rw [List.toFinset_card_of_nodup hnodup, List.length_map]
    _ ≤ ((objKeys (classifyRun emails buckets responses).classifications).toFinset
          ∪ (((classifyRun emails buckets responses).errors.map
              BatchError.batchThreadIds).flatten).toFinset).card :=
        Finset.card_le_card hsub
    _ ≤ (objKeys (classifyRun emails buckets responses).classifications).toFinset.card
          + (((classifyRun emails buckets responses).errors.map
              BatchError.batchThreadIds).flatten).toFinset.card :=
        Finset.card_union_le _ _
    _ = (classifyRun emails buckets responses).classifications.length
          + (((classifyRun emails buckets responses).errors.map
              BatchError.batchThreadIds).flatten).toFinset.card := by
        rw [List.toFinset_card_of_nodup hkeysnodup]
        unfold objKeys
        rw [List.length_map]

/-- Witness for C3's amended theorem at a concrete one-email run. -/
theorem classifyRun_accounts_for_all_inputs_witness :
    (1 : Nat) ≤ (classifyRun [⟨"t1", none, none, none⟩] [⟨"b1", "A", none⟩]
        (fun _ => Except.ok (RawOutput.arr
          [some ⟨JsVal.str "t1", JsVal.str "A"⟩]))).classifications.length
      + (((classifyRun [⟨"t1", none, none, none⟩] [⟨"b1", "A", none⟩]
          (fun _ => Except.ok (RawOutput.arr
            [some ⟨JsVal.str "t1", JsVal.str "A"⟩]))).errors.map
          BatchError.batchThreadIds).flatten).toFinset.card :=
  (classifyRun_accounts_for_all_inputs [⟨"t1", none, none, none⟩]
    [⟨"b1", "A", none⟩]
    (fun _ => Except.ok (RawOutput.arr [some ⟨JsVal.str "t1", JsVal.str "A"⟩]))
    (by decide) (by decide)).2

/-- C10: every value stored in the returned classifications map is the id of
one of the bucket objects supplied in the request. -/
theorem classifyRun_values_are_bucket_ids (emails : List Email)
    (buckets : List Bucket) (responses : Nat → Except GenError RawOutput) :
    ∀ p ∈ (classifyRun emails buckets responses).classifications,
      p.2 ∈ buckets.map Bucket.id := by
  intro p hp
  rw [classifyRun_eq] at hp
  rcases mem_foldl_objAssign _ _ _ hp with h0 | ⟨m, hm, hpm⟩
  · exact absurd h0 (by simp)
  · obtain ⟨pr, hpr, hmf⟩ := List.mem_map.mp hm
    rw [← hmf] at hpm
    exact processSingleBatch_values buckets pr.2 (responses pr.1) p hpm

/-- Witness for C10 at a concrete run. -/
theorem classifyRun_values_are_bucket_ids_witness :
    (("t1", "b1") : String × String).2 ∈ List.map Bucket.id [⟨"b1", "A", none⟩] := by
  have hch : chunkArray [(⟨"t1", none, none, none⟩ : Email)] BATCH_SIZE
      = [[⟨"t1", none, none, none⟩]] :=
    chunkArray_of_le BATCH_SIZE (by decide) _ (by decide) (by decide)
  have hp : (("t1", "b1") : String × String)
      ∈ (classifyRun [⟨"t1", none, none, none⟩] [⟨"b1", "A", none⟩]
        (fun _ => Except.ok (RawOutput.arr
          [some ⟨JsVal.str "t1", JsVal.str "A"⟩]))).classifications := by
    rw [classifyRun_eq, hch]
    decide
  exact classifyRun_values_are_bucket_ids [⟨"t1", none, none, none⟩]
    [⟨"b1", "A", none⟩]
    (fun _ => Except.ok (RawOutput.arr [some ⟨JsVal.str "t1", JsVal.str "A"⟩]))
    ("t1", "b1") hp

/-! ## Rate-limited dispatch -/

/-- Closed form of the dispatch loop from a window-opening state (clock equal
to the window start, counter `c < R` starts already admitted): batch `k`
starts at `T + W * ((c + k) / R)`. -/
theorem dispatchStartTimes_closed (R W : Nat) :
    ∀ (n c T : Nat), c < R →
      dispatchStartTimes R W n ⟨c, T, T⟩
        = (List.range n).map (fun k => T + W * ((c + k) / R)) := by
  intro n
  induction n with
  | zero => intro c T hc; simp [dispatchStartTimes]
  | succ n ih =>
    intro c T hc
    rw [List.range_succ_eq_map, List.map_cons, List.map_map]
    by_cases hcR : R ≤ c + 1
    · have hceq : c + 1 = R := by omega
      have hred : dispatchStartTimes R W (n + 1) ⟨c, T, T⟩
          = T :: dispatchStartTimes R W n ⟨0, T + (W - (T - T)), T + (W - (T - T))⟩ := by
        simp only [dispatchStartTimes]
        rw [if_pos hcR]
      rw [hred]
      have hTW : T + (W - (T - T)) = T + W := by omega
      rw [hTW, ih 0 (T + W) (by omega)]
      refine congrArg₂ List.cons ?_ ?_
      · have h0 : (c + 0) / R = 0 := Nat.div_eq_of_lt (by omega)
        rw [h0]
        omega
      · refine List.map_congr_left ?_
        intro k _
        simp only [Function.comp]
        have harith : c + (k + 1) = k + R := by omega
        rw [harith, Nat.add_div_right k (by omega)]
        simp only [Nat.zero_add]
        have : W * (k / R + 1) = W * (k / R) + W := by ring
        omega
    · have hred : dispatchStartTimes R W (n + 1) ⟨c, T, T⟩
          = T :: dispatchStartTimes R W n ⟨c + 1, T, T⟩ := by
        simp only [dispatchStartTimes]
        rw [if_neg hcR]
      rw [hred, ih (c + 1) T (by omega)]
      refine congrArg₂ List.cons ?_ ?_
      · have h0 : (c + 0) / R = 0 := Nat.div_eq_of_lt (by omega)
        rw [h0]
        omega
      · refine List.map_congr_left ?_
        intro k _
        simp only [Function.comp]
        have harith : c + 1 + k = c + (k + 1) := by omega
        rw [harith]

/-- Closed form of a run's start times: four at 0 ms, four at 1100 ms, four at
2200 ms, and so on. -/
theorem startTimes_closed (N : Nat) :
    startTimes N = (List.range N).map (fun k => 1100 * (k / 4)) := by
  unfold startTimes RATE_PER_SECOND RATE_LIMIT_DELAY_BUFFER_MS
  rw [dispatchStartTimes_closed 4 (1000 + 100) N 0 0 (by omega)]
  refine List.map_congr_left ?_
  intro k _
  omega

/-- No two distinct whole windows' start instants fit in one rolling
one-second window: consecutive burst times are `1100 > 1000` ms apart. -/
theorem burst_times_separated (t m1 m2 : Nat) (h12 : m1 < m2)
    (h1a : t ≤ 1100 * m1) (h1b : 1100 * m1 ≤ t + 1000)
    (h2a : t ≤ 1100 * m2) (h2b : 1100 * m2 ≤ t + 1000) : False := by
  have h3 : m1 + 1 ≤ m2 := h12
  have hsep : 1100 * m1 + 1100 ≤ 1100 * m2 := by
    calc 1100 * m1 + 1100 = 1100 * (m1 + 1) := by ring
      _ ≤ 1100 * m2 := Nat.mul_le_mul_left _ h3
  omega

/-- C9: under the idealized clock of the embedding (starting a batch is
instantaneous; only the `setTimeout` wait advances time), every batch of the
run is started — in-flight batches are only awaited after the loop, never
limited — and at most `RATE_PER_SECOND` dispatches start within any rolling
one-second window `[t, t + 1000]`. -/
theorem dispatch_respects_rolling_window (N t : Nat) :
    (startTimes N).length = N
    ∧ ((startTimes N).countP (fun x => t ≤ x && x ≤ t + 1000)) ≤ RATE_PER_SECOND := by
  constructor
  · rw [startTimes_closed]
    simp
  · rw [startTimes_closed, List.countP_map]
    show ((List.range N).countP
      (fun k => (t ≤ 1100 * (k / 4) && 1100 * (k / 4) ≤ t + 1000))) ≤ RATE_PER_SECOND
    by_cases hex : ∃ k0, t ≤ 1100 * (k0 / 4) ∧ 1100 * (k0 / 4) ≤ t + 1000
    · obtain ⟨k0, hq0⟩ := hex
      have hmono : ∀ k ∈ List.range N,
          (t ≤ 1100 * (k / 4) && 1100 * (k / 4) ≤ t + 1000) = true →
          (decide (k / 4 = k0 / 4)) = true := by
        intro k _ hk
        simp only [Bool.and_eq_true, decide_eq_true_eq] at hk
        rw [decide_eq_true_eq]
        rcases Nat.lt_trichotomy (k / 4) (k0 / 4) with hlt | heq | hgt
        · exact absurd (burst_times_separated t (k / 4) (k0 / 4) hlt
            hk.1 hk.2 hq0.1 hq0.2) not_false
        · exact heq
        · exact absurd (burst_times_separated t (k0 / 4) (k / 4) hgt
            hq0.1 hq0.2 hk.1 hk.2) not_false
      calc ((List.range N).countP
            (fun k => (t ≤ 1100 * (k / 4) && 1100 * (k / 4) ≤ t + 1000)))
          ≤ (List.range N).countP (fun k => decide (k / 4 = k0 / 4)) :=
            List.countP_mono_left hmono
        _ ≤ RATE_PER_SECOND := by
            rw [List.countP_eq_length_filter]
            have hnd : ((List.range N).filter
                (fun k => decide (k / 4 = k0 / 4))).Nodup :=
              List.Nodup.filter _ (List.nodup_range N)
            rw [← List.toFinset_card_of_nodup hnd]
            have hsub : ((List.range N).filter
                (fun k => decide (k / 4 = k0 / 4))).toFinset
                ⊆ Finset.Ico (4 * (k0 / 4)) (4 * (k0 / 4) + 4) := by
              intro k hk
              rw [List.mem_toFinset, List.mem_filter, decide_eq_true_eq] at hk
              rw [Finset.mem_Ico]
              omega
            have := Finset.card_le_card hsub
            rw [Nat.card_Ico] at this
            unfold RATE_PER_SECOND
            omega
    · push_neg at hex
      have hzero : ((List.range N).countP
          (fun k => (t ≤ 1100 * (k / 4) && 1100 * (k / 4) ≤ t + 1000))) = 0 := by
        rw [List.countP_eq_zero]
        intro k _
        simp only [Bool.and_eq_true, decide_eq_true_eq, not_and]
        intro h1
        exact not_le.mpr (hex k h1)
      rw [hzero]
      exact Nat.zero_le _
